import Mathlib

/-!
Shallow embedding of the table reconstruction engine of `table_normalizer.py`
(the `TableNormalizer` class), together with theorems settling the spec claims.

Modelling conventions:
* Python strings are Lean `String`s (lists of `Char`); the ASCII subset of
  Python's `\s`, `str.isdigit` and `int()` is modelled (the repository's
  attribute values only use ASCII digits and spaces); `\w` is modelled as
  ASCII letters/digits/underscore plus the Cyrillic block U+0400..U+04FF,
  which covers the Bulgarian texts the normalizer processes.
* Python `int()` can raise `ValueError`; fallible extraction is `Except`.
* The `0.7` threshold comparison `numeric >= len * 0.7` is modelled as the
  exact rational comparison `10 * numeric >= 7 * len`; no claim touches an
  input at the floating-point boundary.
-/

set_option maxHeartbeats 2000000

/-- The characters Python's `\s` and `str.strip()` treat as whitespace
(ASCII subset). -/
def pySpace (c : Char) : Bool :=
  c == ' ' || c == '\t' || c == '\n' || c == '\r' || c == '\x0b' || c == '\x0c'

/-- Python regex `\w` word characters: ASCII letters, digits, underscore and
the Cyrillic block (the scripts appearing in the repository's documents). -/
def isWordChar (c : Char) : Bool :=
  c.isAlpha || c.isDigit || c == '_' ||
    (decide (0x400 ≤ c.toNat) && decide (c.toNat ≤ 0x4FF))

theorem length_dropWhile_le_len (p : Char → Bool) (l : List Char) :
    (l.dropWhile p).length ≤ l.length := by
  induction l with
  | nil => simp [List.dropWhile]
  | cons a l ih =>
    by_cases h : p a <;> simp [List.dropWhile, h] <;> omega

/-- `re.sub(r'\s+', ' ', text)`, fuel-structural so that the kernel can
evaluate it (each step consumes at least one character, so fuel = input
length always suffices and the fuel-exhausted arm is unreachable). -/
def collapseWsGo : Nat → List Char → List Char
  | 0, l => l
  | _, [] => []
  | fuel + 1, c :: rest =>
    if pySpace c then ' ' :: collapseWsGo fuel (rest.dropWhile pySpace)
    else c :: collapseWsGo fuel rest

def collapseWs (l : List Char) : List Char := collapseWsGo l.length l

/-- Strip characters satisfying `p` from both ends (Python `str.strip`). -/
def stripChars (p : Char → Bool) (l : List Char) : List Char :=
  ((l.dropWhile p).reverse.dropWhile p).reverse

/-- `TableNormalizer._clean_text`: collapse whitespace, then strip. -/
def cleanText (s : String) : String :=
  ⟨stripChars pySpace (collapseWs s.data)⟩

/-- Python `str.strip()` with no arguments. -/
def pyTrim (s : String) : String := ⟨stripChars pySpace s.data⟩

/-- Value of a list of ASCII decimal digits. -/
def digitsToNat (l : List Char) : Nat :=
  l.foldl (fun acc c => acc * 10 + (c.toNat - 48)) 0

/-- Python `str.isdigit()` (ASCII digits). -/
def pyIsDigit (s : String) : Bool :=
  !s.data.isEmpty && s.data.all Char.isDigit

/-- Helper for `pyInt`: a nonempty all-digit run. -/
def pyIntNat (l : List Char) : Option Nat :=
  if !l.isEmpty && l.all Char.isDigit then some (digitsToNat l) else none

/-- Python `int(s)` on a string: optional surrounding whitespace, optional
sign, nonempty digit run; anything else raises (`none`). -/
def pyInt (s : String) : Option Int :=
  match stripChars pySpace s.data with
  | '+' :: rest => (pyIntNat rest).map Int.ofNat
  | '-' :: rest => (pyIntNat rest).map (fun n => -(n : Int))
  | rest => (pyIntNat rest).map Int.ofNat

/-- `re.match(r'(\d+)', s)`: the leading digit run, if nonempty. -/
def leadingNat (s : String) : Option Nat :=
  let d := s.data.takeWhile Char.isDigit
  if d.isEmpty then none else some (digitsToNat d)

/-- After the single mandatory space of `- +`, skip further spaces and
require a word character (`(\w)` after `- +` in the hyphenation regex). -/
def skipSpacesWord : List Char → Option (Char × List Char)
  | [] => none
  | c :: rest =>
    if c == ' ' then skipSpacesWord rest
    else if isWordChar c then some (c, rest) else none

/-- Match `' +(\w)'`: one or more spaces followed by a word character. -/
def spacesThenWord : List Char → Option (Char × List Char)
  | ' ' :: rest => skipSpacesWord rest
  | _ => none

theorem skipSpacesWord_length {l : List Char} {c : Char} {r : List Char}
    (h : skipSpacesWord l = some (c, r)) : r.length < l.length := by
  induction l with
  | nil => simp [skipSpacesWord] at h
  | cons a rest ih =>
    simp only [skipSpacesWord] at h
    by_cases ha : a == ' '
    · simp [ha] at h
      have := ih h
      simp; omega
    · simp [ha] at h
      by_cases hw : isWordChar a
      · simp [hw] at h
        obtain ⟨h1, h2⟩ := h
        subst h2; simp
      · simp [hw] at h

theorem spacesThenWord_length {l : List Char} {c : Char} {r : List Char}
    (h : spacesThenWord l = some (c, r)) : r.length < l.length := by
  match l with
  | [] => simp [spacesThenWord] at h
  | a :: rest =>
    by_cases ha : a = ' '
    · subst ha
      simp only [spacesThenWord] at h
      have := skipSpacesWord_length h
      simp; omega
    · rw [show spacesThenWord (a :: rest) = none by
        unfold spacesThenWord
        split <;> simp_all] at h
      exact absurd h (by simp)

/-- A match of `(\w)- +(\w)` starting at scan character `c1` followed by
`rest`: `c1` must be a word character, `rest` must start with `'-'` and then
one or more spaces and a word character.  Returns the trailing word
character and the unconsumed remainder. -/
def hyphMatch (c1 : Char) (rest : List Char) : Option (Char × List Char) :=
  if isWordChar c1 then
    match rest with
    | c :: rest2 => if c == '-' then spacesThenWord rest2 else none
    | [] => none
  else none

theorem hyphMatch_length {c1 : Char} {rest : List Char} {c2 : Char}
    {rest2 : List Char} (h : hyphMatch c1 rest = some (c2, rest2)) :
    rest2.length < rest.length := by
  unfold hyphMatch at h
  by_cases hw : isWordChar c1
  · simp only [hw, if_true] at h
    match rest with
    | [] => simp at h
    | c :: tl =>
      by_cases hc : c == '-'
      · simp only [hc, if_true] at h
        have := spacesThenWord_length h
        simp; omega
      · simp [hc] at h
  · simp [hw] at h

/-- `TableNormalizer._remove_hyphenation`:
`re.sub(r'(\w)- +(\w)', r'\1\2', text)` as a left-to-right scanner with
Python's non-overlapping leftmost-match semantics (after a substitution the
scan resumes after the consumed text).  Fuel-structural; each step consumes
at least one character, so fuel = input length always suffices. -/
def removeHyphGo : Nat → List Char → List Char
  | 0, l => l
  | _, [] => []
  | fuel + 1, c1 :: rest =>
    match hyphMatch c1 rest with
    | some (c2, rest2) => c1 :: c2 :: removeHyphGo fuel rest2
    | none => c1 :: removeHyphGo fuel rest

def removeHyphChars (l : List Char) : List Char := removeHyphGo l.length l

def remove_hyphenation (s : String) : String := ⟨removeHyphChars s.data⟩

/-- Does the text contain an occurrence of the `(\w)- +(\w)` pattern?  (Same
scan structure as `removeHyphChars`.) -/
def hasHyphBreak : List Char → Bool
  | [] => false
  | c1 :: rest =>
    if (hyphMatch c1 rest).isSome then true else hasHyphBreak rest

theorem removeHyph_of_no_break_aux :
    ∀ (n : Nat) (l : List Char), hasHyphBreak l = false →
      removeHyphGo n l = l := by
  intro n
  induction n with
  | zero => intro l _; cases l <;> rfl
  | succ n ih =>
    intro l h
    match l with
    | [] => rfl
    | c1 :: rest =>
      by_cases hm : (hyphMatch c1 rest).isSome
      · rw [hasHyphBreak] at h
        simp [hm] at h
      · rw [Option.not_isSome_iff_eq_none] at hm
        rw [hasHyphBreak, hm] at h
        simp only [Option.isSome_none, Bool.false_eq_true, if_false] at h
        simp only [removeHyphGo, hm]
        rw [ih rest h]

/-- A text with no `(\w)- +(\w)` hyphenation break is left unchanged by the
hyphenation-repair pass. -/
theorem removeHyph_of_no_break (l : List Char) (h : hasHyphBreak l = false) :
    removeHyphChars l = l :=
  removeHyph_of_no_break_aux l.length l h

/-! ## Data model -/

/-- `NormalizedCell` of `table_normalizer.py`.  `colspan`/`rowspan` are `Int`
because they are read with Python `int()`, which accepts signs. -/
structure NormalizedCell where
  text : String
  colspan : Int := 1
  rowspan : Int := 1
  width : Option Nat := none
  align : String := "left"
  is_header : Bool := false
  has_bottom_border : Bool := true
  has_top_border : Bool := false
  border_code : Nat := 0
deriving DecidableEq, Repr

/-- `NormalizedRow` of `table_normalizer.py`. -/
structure NormalizedRow where
  cells : List NormalizedCell := []
  is_header : Bool := false
  is_column_numbers : Bool := false
deriving DecidableEq, Repr

/-- `NormalizedTable` of `table_normalizer.py`. -/
structure NormalizedTable where
  rows : List NormalizedRow := []
  title : Option String := none
  notes : Option String := none
deriving DecidableEq, Repr

/-- A `<td>`/`<th>` element as the normalizer reads it: tag name, CSS
classes, the `width`/`colspan`/`rowspan` attributes as raw strings, the
inline `style` attribute, and the element's `get_text()` content. -/
structure HtmlCell where
  tag : String := "td"
  classes : List String := []
  width_attr : Option String := none
  colspan_attr : Option String := none
  rowspan_attr : Option String := none
  style : Option String := none
  text : String := ""
deriving DecidableEq, Repr

/-- A `<tr>` element. -/
structure HtmlRow where
  cells : List HtmlCell := []
deriving DecidableEq, Repr

/-- A `<table>` element (flat model: cells contain text only, no nested
tables — the repository's `def`/`defFix` tables are flat). -/
structure HtmlTable where
  classes : List String := []
  border : Option String := none
  tableformat : Option String := none
  style : Option String := none
  rows : List HtmlRow := []
deriving DecidableEq, Repr

/-! ## Row/cell extraction (`TableNormalizer._extract_rows`) -/

/-- `ALIGN_PREFIXES`: CSS class prefixes indicating alignment. -/
def alignForLetter (c : Char) : Option String :=
  if c == 'L' then some "left"
  else if c == 'C' then some "center"
  else if c == 'R' then some "right"
  else if c == 'J' then some "justify"
  else none

/-- The class-scanning loop of `_extract_rows`: the first class of length
`≥ 2` whose first character is an alignment prefix fixes the alignment and —
only if the remainder is all digits — the border code and the derived
bottom/top border flags; the loop `break`s at that class either way. -/
def classAlignBorder : List String → String × Nat × Bool × Bool
  | [] => ("left", 0, true, false)
  | cls :: rest =>
    match cls.data with
    | c0 :: c1 :: cs =>
      match alignForLetter c0 with
      | some al =>
        if pyIsDigit ⟨c1 :: cs⟩ then
          let n := digitsToNat (c1 :: cs)
          (al, n, n % 2 == 1, n / 2 % 2 == 1)
        else (al, 0, true, false)
      | none => classAlignBorder rest
    | _ => classAlignBorder rest

/-- One cell of `_extract_rows`: text cleaning, width from the leading
digits of the `width` attribute, alignment/border from the CSS class,
colspan/rowspan via `int()` (which raises — `Except.error` — on a present
but unparseable attribute, defaulting to 1 when absent). -/
def extract_cell (cell : HtmlCell) : Except String NormalizedCell :=
  let text := cleanText cell.text
  let width : Option Nat :=
    match cell.width_attr with
    | none => none
    | some w => if w == "" then none else leadingNat w
  let abc := classAlignBorder cell.classes
  match (match cell.colspan_attr with | none => some 1 | some s => pyInt s) with
  | none => .error "ValueError: invalid literal for int() in colspan"
  | some cs =>
    match (match cell.rowspan_attr with | none => some 1 | some s => pyInt s) with
    | none => .error "ValueError: invalid literal for int() in rowspan"
    | some rs =>
      .ok { text := text, colspan := cs, rowspan := rs, width := width,
            align := abc.1, is_header := cell.tag == "th",
            has_bottom_border := abc.2.2.1, has_top_border := abc.2.2.2,
            border_code := abc.2.1 }

def extract_cells : List HtmlCell → Except String (List NormalizedCell)
  | [] => .ok []
  | c :: cs =>
    match extract_cell c with
    | .error e => .error e
    | .ok cell =>
      match extract_cells cs with
      | .error e => .error e
      | .ok rest => .ok (cell :: rest)

/-- `_extract_rows`: rows whose cell list is empty are skipped. -/
def extract_rows_list : List HtmlRow → Except String (List NormalizedRow)
  | [] => .ok []
  | r :: rs =>
    match extract_cells r.cells with
    | .error e => .error e
    | .ok cells =>
      match extract_rows_list rs with
      | .error e => .error e
      | .ok rest => .ok (if cells.isEmpty then rest else ⟨cells, false, false⟩ :: rest)

def extract_rows (t : HtmlTable) : Except String (List NormalizedRow) :=
  extract_rows_list t.rows

/-! ## Nearest-column mapping (`TableNormalizer._find_nearest_column`) -/

/-- `|a - b|` on pixel positions. -/
def pxDist (a b : Nat) : Nat := ((a : Int) - (b : Int)).natAbs

/-- The scanning loop of `_find_nearest_column`: strict improvement only, so
the first (lowest-index) minimum wins.  The `tolerance = 5` constant of the
source is declared but never used. -/
def nearestFold (position : Nat) : List Nat → Nat → Nat → Nat → Nat
  | [], _, best, _ => best
  | p :: rest, i, best, bestDiff =>
    if pxDist p position < bestDiff then
      nearestFold position rest (i + 1) i (pxDist p position)
    else nearestFold position rest (i + 1) best bestDiff

/-- `_find_nearest_column` (callers always pass a nonempty list; `[]` is
mapped to 0, the source would raise an `IndexError`). -/
def find_nearest_column (position : Nat) (canonical_positions : List Nat) : Nat :=
  match canonical_positions with
  | [] => 0
  | p0 :: _ => nearestFold position canonical_positions 0 0 (pxDist p0 position)

theorem nearestFold_spec (position : Nat) :
    ∀ (l : List Nat) (i best bd : Nat),
      (nearestFold position l i best bd = best ∧
        ∀ j, j < l.length → bd ≤ pxDist (l.getD j 0) position) ∨
      (∃ j, j < l.length ∧
        nearestFold position l i best bd = i + j ∧
        pxDist (l.getD j 0) position < bd ∧
        (∀ k, k < l.length →
          pxDist (l.getD j 0) position ≤ pxDist (l.getD k 0) position) ∧
        (∀ k, k < j →
          pxDist (l.getD j 0) position < pxDist (l.getD k 0) position)) := by
  intro l
  induction l with
  | nil =>
    intro i best bd
    left
    exact ⟨rfl, by intro j hj; simp at hj⟩
  | cons p rest ih =>
    intro i best bd
    by_cases hlt : pxDist p position < bd
    · rcases ih (i + 1) i (pxDist p position) with
        ⟨heq, hall⟩ | ⟨j, hjlen, heq, hless, hmin, hstrict⟩
      · right
        refine ⟨0, by simp, ?_, ?_, ?_, ?_⟩
        · rw [nearestFold]
          simp only [hlt, if_true]
          rw [heq]; omega
        · simpa using hlt
        · intro k hk
          match k with
          | 0 => exact Nat.le_refl _
          | k + 1 =>
            simp only [List.getD_cons_zero, List.getD_cons_succ]
            exact hall k (by simpa using hk)
        · intro k hk; omega
      · right
        refine ⟨j + 1, by simpa using hjlen, ?_, ?_, ?_, ?_⟩
        · rw [nearestFold]
          simp only [hlt, if_true]
          rw [heq]; omega
        · simp only [List.getD_cons_succ]
          exact Nat.lt_trans hless hlt
        · intro k hk
          match k with
          | 0 =>
            simp only [List.getD_cons_zero, List.getD_cons_succ]
            exact Nat.le_of_lt hless
          | k + 1 =>
            simp only [List.getD_cons_succ]
            exact hmin k (by simpa using hk)
        · intro k hk
          match k with
          | 0 =>
            simp only [List.getD_cons_zero, List.getD_cons_succ]
            exact hless
          | k + 1 =>
            simp only [List.getD_cons_succ]
            exact hstrict k (by omega)
    · rcases ih (i + 1) best bd with
        ⟨heq, hall⟩ | ⟨j, hjlen, heq, hless, hmin, hstrict⟩
      · left
        refine ⟨?_, ?_⟩
        · rw [nearestFold]
          simp only [hlt, if_false]
          exact heq
        · intro j hj
          match j with
          | 0 => simpa using Nat.le_of_not_lt hlt
          | j + 1 =>
            simp only [List.getD_cons_succ]
            exact hall j (by simpa using hj)
      · right
        refine ⟨j + 1, by simpa using hjlen, ?_, ?_, ?_, ?_⟩
        · rw [nearestFold]
          simp only [hlt, if_false]
          rw [heq]; omega
        · simpa using hless
        · intro k hk
          match k with
          | 0 =>
            simp only [List.getD_cons_zero, List.getD_cons_succ]
            exact Nat.le_of_lt (Nat.lt_of_lt_of_le hless (Nat.le_of_not_lt hlt))
          | k + 1 =>
            simp only [List.getD_cons_succ]
            exact hmin k (by simpa using hk)
        · intro k hk
          match k with
          | 0 =>
            simp only [List.getD_cons_zero, List.getD_cons_succ]
            exact Nat.lt_of_lt_of_le hless (Nat.le_of_not_lt hlt)
          | k + 1 =>
            simp only [List.getD_cons_succ]
            exact hstrict k (by omega)

/-- C10: `_find_nearest_column` is an exact argmin with ties resolved to the
lowest index; the declared 5-pixel tolerance constant plays no role.  For
every pixel position and nonempty boundary list, the returned index is in
range, its boundary minimizes the absolute pixel distance, and every other
boundary at the same distance has an index no smaller. -/
theorem c10_find_nearest_column_argmin (position : Nat) (ps : List Nat)
    (h : ps ≠ []) :
    find_nearest_column position ps < ps.length ∧
    (∀ k, k < ps.length →
      pxDist (ps.getD (find_nearest_column position ps) 0) position ≤
        pxDist (ps.getD k 0) position) ∧
    (∀ k, k < ps.length →
      pxDist (ps.getD k 0) position =
        pxDist (ps.getD (find_nearest_column position ps) 0) position →
      find_nearest_column position ps ≤ k) := by
  match ps with
  | [] => exact absurd rfl h
  | p0 :: rest =>
    have hr : find_nearest_column position (p0 :: rest) =
        nearestFold position (p0 :: rest) 0 0 (pxDist p0 position) := rfl
    rcases nearestFold_spec position (p0 :: rest) 0 0 (pxDist p0 position) with
      ⟨heq, hall⟩ | ⟨j, hjlen, heq, _, hmin, hstrict⟩
    · rw [hr, heq]
      refine ⟨by simp, ?_, ?_⟩
      · intro k hk
        match k with
        | 0 => exact Nat.le_refl _
        | k + 1 =>
          simpa using hall (k + 1) hk
      · intro k _ _; exact Nat.zero_le k
    · rw [hr, heq]
      simp only [Nat.zero_add]
      refine ⟨hjlen, hmin, ?_⟩
      · intro k hk hkeq
        by_cases hkj : k < j
        · exact absurd hkeq (by have := hstrict k hkj; omega)
        · omega

/-! ## Colspan inference (`_normalize_row_cells`, `_find_canonical_widths`) -/

/-- Cumulative pixel boundaries: `[0, w0, w0+w1, ...]`. -/
def canonicalPositionsFrom : Nat → List Nat → List Nat
  | _, [] => []
  | total, w :: ws => (total + w) :: canonicalPositionsFrom (total + w) ws

def canonical_positions (ws : List Nat) : List Nat :=
  0 :: canonicalPositionsFrom 0 ws

/-- The per-cell loop of `_normalize_row_cells`.  `k` is the number of cells
already emitted (`len(normalized) - 1` after the Python append is `k`). -/
def normalizeRowCellsGo (cw : List Nat) (cpos : List Nat) :
    List NormalizedCell → Nat → Nat → List NormalizedCell
  | [], _, _ => []
  | cell :: rest, current_pos, k =>
    let cellWidth := cell.width.getD 0
    if cellWidth == 0 then
      -- no width info: single column, width left unset, border info preserved
      let out : NormalizedCell :=
        { text := cell.text, colspan := 1, rowspan := cell.rowspan,
          align := cell.align, is_header := cell.is_header,
          has_bottom_border := cell.has_bottom_border,
          has_top_border := cell.has_top_border,
          border_code := cell.border_code }
      let idx := min k (cw.length - 1)
      out :: normalizeRowCellsGo cw cpos rest (current_pos + cw.getD idx 0) (k + 1)
    else
      let cellEnd := current_pos + cellWidth
      let startCol := find_nearest_column current_pos cpos
      let endCol := find_nearest_column cellEnd cpos
      let colspan : Int := max 1 ((endCol : Int) - (startCol : Int))
      let out : NormalizedCell :=
        { text := cell.text, colspan := colspan, rowspan := cell.rowspan,
          width := some cellWidth, align := cell.align,
          is_header := cell.is_header,
          has_bottom_border := cell.has_bottom_border,
          has_top_border := cell.has_top_border,
          border_code := cell.border_code }
      out :: normalizeRowCellsGo cw cpos rest cellEnd (k + 1)

/-- `_normalize_row_cells`. -/
def normalize_row_cells (cells : List NormalizedCell) (cw : List Nat) :
    List NormalizedCell :=
  if cw.isEmpty then cells
  else normalizeRowCellsGo cw (canonical_positions cw) cells 0 0

/-- The truthy widths of a row: `[cell.width for cell in row.cells if cell.width]`
(`None` and `0` are both falsy). -/
def truthyWidths (row : NormalizedRow) : List Nat :=
  row.cells.filterMap fun c =>
    match c.width with
    | some w => if w == 0 then none else some w
    | none => none

/-- The second scan of `_find_canonical_widths`: the first row, in order,
with strictly more all-width cells than any earlier candidate. -/
def bestWidthRow : List NormalizedRow → Option NormalizedRow → Nat → Option NormalizedRow
  | [], best, _ => best
  | r :: rest, best, bestCount =>
    let ws := truthyWidths r
    if ws.length == r.cells.length && bestCount < ws.length then
      bestWidthRow rest (some r) ws.length
    else bestWidthRow rest best bestCount

/-- `_find_canonical_widths`. -/
def find_canonical_widths (rows : List NormalizedRow) (col_numbers_idx : Option Nat) :
    List Nat :=
  let fromColRow : Option (List Nat) :=
    match col_numbers_idx with
    | some i =>
      match rows.get? i with
      | some row =>
        let ws := truthyWidths row
        if ws.length == row.cells.length && 2 ≤ ws.length then some ws else none
      | none => none
    | none => none
  match fromColRow with
  | some ws => ws
  | none =>
    match bestWidthRow rows none 0 with
    | some row => row.cells.map (fun c => c.width.getD 0)
    | none => []

/-! ## Header / column-numbers detection (`_analyze_and_normalize`) -/

/-- One row of the column-numbers scan: at least 70% of the stripped cell
texts are digit strings and the row has at least 2 cells (the `0.7` float
threshold modelled as the exact rational comparison). -/
def isColNumbersRow (row : NormalizedRow) : Bool :=
  let texts := row.cells.map fun c => pyTrim c.text
  let numeric := (texts.filter pyIsDigit).length
  decide (7 * texts.length ≤ 10 * numeric) && decide (2 ≤ texts.length)

def find_col_numbers_idx (rows : List NormalizedRow) : Option Nat :=
  rows.findIdx? isColNumbersRow

/-- Keywords indicating form/template tables. -/
def form_keywords : List String :=
  ["ПРИМЕРНА ФОРМА", "ПРОТОКОЛ", "НАРЯД", "УДОСТОВЕРЕНИЕ",
   "ДНЕВНИК", "ЗАПОВЕД", "ДЕКЛАРАЦИЯ", "ФОРМУЛЯР"]

/-- Python `str.upper()` restricted to ASCII and the Cyrillic block. -/
def pyUpperChar (c : Char) : Char :=
  if c.isLower then c.toUpper
  else if decide (0x430 ≤ c.toNat) && decide (c.toNat ≤ 0x44F) then
    Char.ofNat (c.toNat - 0x20)
  else if c.toNat == 0x451 then Char.ofNat 0x401
  else c

def pyUpper (s : String) : String := ⟨s.data.map pyUpperChar⟩

/-- Is `needle` a prefix of `hay` (character lists)? -/
def headMatches : List Char → List Char → Bool
  | [], _ => true
  | _ :: _, [] => false
  | a :: as, b :: bs => a == b && headMatches as bs

/-- Python `needle in hay` substring containment. -/
def containsSubstr (hay needle : String) : Bool :=
  go hay.data
where
  go : List Char → Bool
    | [] => needle.data.isEmpty
    | l@(_ :: rest) => headMatches needle.data l || go rest

/-- `_is_form_table` (row-level form check inside `_analyze_and_normalize`). -/
def is_form_table (rows : List NormalizedRow) : Bool :=
  if rows.length < 5 then false
  else
    let cellCounts := rows.map (·.cells.length)
    let uniq := cellCounts.dedup.length
    if uniq ≤ 2 then false
    else
      let firstRowsText :=
        pyUpper (String.intercalate " "
          ((rows.take 10).flatMap fun r => r.cells.map (·.text)))
      let kw := form_keywords.any fun k => containsSubstr firstRowsText k
      if decide (4 ≤ uniq) && kw then true
      else if 5 ≤ uniq then true
      else false

/-- `enumerate(rows)`-style map carrying the index. -/
def mapWithIdx {α β : Type} (f : Nat → α → β) : Nat → List α → List β
  | _, [] => []
  | i, a :: as => f i a :: mapWithIdx f (i + 1) as

/-- `_create_simple_table`: pass rows through, fixing only the header /
column-numbers flags. -/
def create_simple_table (rows : List NormalizedRow) (col_numbers_idx : Option Nat) :
    NormalizedTable :=
  { rows := mapWithIdx
      (fun i row =>
        let ih := match col_numbers_idx with
          | some k => decide (i < k)
          | none => false
        { cells := row.cells.map (fun c => { c with is_header := ih }),
          is_header := ih,
          is_column_numbers := col_numbers_idx == some i })
      0 rows }

/-! ## Header rowspan inference (`TableNormalizer._apply_rowspan`)

The Python code builds a position grid `(row, logical_col) -> (cell_idx,
cell)` over a shared mutable cell store, scans header columns for cells
lacking a bottom border, merges downward, and finally deletes merged-away
cells.  The grid stores cell indices; cell state is read from the store so
that the Python aliasing (grid entries and rows referencing the same cell
objects) is reproduced. -/

abbrev RGrid := List ((Nat × Int) × Nat)

/-- Dictionary lookup; entries are prepended, so first match = last write. -/
def grid_find : RGrid → Nat × Int → Option Nat
  | [], _ => none
  | (k, v) :: rest, key => if k = key then some v else grid_find rest key

/-- `while (row_idx, logical_col) in grid: logical_col += 1`.  The fuel
`g.length + 1` always suffices: at most `g.length` columns are occupied. -/
def free_col (g : RGrid) (r : Nat) : Int → Nat → Int
  | c, 0 => c
  | c, fuel + 1 =>
    if (grid_find g (r, c)).isSome then free_col g r (c + 1) fuel else c

/-- Python `range(a, b)` over integers. -/
def range_int (a b : Int) : List Int :=
  (List.range (b - a).toNat).map fun i => a + (i : Int)

/-- `for c in range(logical_col+1, logical_col+colspan): grid[(r,c)] = idx`. -/
def mark_span (r : Nat) (ci : Nat) (lc colspan : Int) (g : RGrid) : RGrid :=
  (range_int (lc + 1) (lc + colspan)).foldl (fun g2 c => (((r, c), ci)) :: g2) g

def build_grid_row (r : Nat) : List NormalizedCell → Nat → Int → RGrid → RGrid
  | [], _, _, g => g
  | cell :: rest, ci, lc, g =>
    let lc2 := free_col g r lc (g.length + 1)
    let g2 := mark_span r ci lc2 cell.colspan ((((r, lc2), ci)) :: g)
    build_grid_row r rest (ci + 1) (lc2 + cell.colspan) g2

def build_grid : List NormalizedRow → Nat → RGrid → RGrid
  | [], _, g => g
  | row :: rest, r, g => build_grid rest (r + 1) (build_grid_row r row.cells 0 0 g)

/-- `max(col for (_, col) in grid.keys()) if grid else 0`. -/
def grid_max_col : RGrid → Int
  | [] => 0
  | (k, _) :: rest => rest.foldl (fun m e => max m e.1.2) k.2

abbrev CellStore := List (List NormalizedCell)

def setAt {α : Type} : List α → Nat → (α → α) → List α
  | [], _, _ => []
  | x :: xs, 0, f => f x :: xs
  | x :: xs, n + 1, f => x :: setAt xs n f

def store_get (s : CellStore) (r i : Nat) : Option NormalizedCell :=
  (s.get? r).bind (·.get? i)

def store_set (s : CellStore) (r i : Nat) (c : NormalizedCell) : CellStore :=
  setAt s r (fun row => setAt row i (fun _ => c))

/-- Result of the inner `while merge_row <= header_end_idx ...` loop, from
the current `merge_row` on: texts of absorbed cells (all of them; the
Python conditional append is applied later as a filter), their grid
positions, the span increment, and the final value of `merge_row`. -/
structure MergeOut where
  texts : List String
  removed : List (Nat × Nat)
  span_add : Nat
  merge_row : Nat

def merge_loop (store : CellStore) (grid : RGrid) (header_end num_rows : Nat)
    (lc : Int) : Nat → Nat → MergeOut
  | mr, 0 => ⟨[], [], 0, mr⟩
  | mr, fuel + 1 =>
    if mr ≤ header_end ∧ mr < num_rows then
      match grid_find grid (mr, lc) with
      | none => ⟨[], [], 0, mr⟩
      | some mci =>
        match store_get store mr mci with
        | none => ⟨[], [], 0, mr⟩
        | some mcell =>
          if mcell.has_bottom_border then ⟨[mcell.text], [(mr, mci)], 1, mr⟩
          else
            let rest := merge_loop store grid header_end num_rows lc (mr + 1) fuel
            ⟨mcell.text :: rest.texts, (mr, mci) :: rest.removed,
             rest.span_add + 1, rest.merge_row⟩
    else ⟨[], [], 0, mr⟩

/-- Log record of one executed header merge. -/
structure MergeRec where
  row : Nat
  cell_idx : Nat
  origin_text : String
  absorbed : List String
  new_text : String
deriving DecidableEq

structure ScanSt where
  store : CellStore
  removed : List (Nat × Nat)
  processed : List (Nat × Nat)
  merges : List MergeRec

/-- The `while row_idx < header_end_idx` scan of one logical column. -/
def scan_col (rows : List NormalizedRow) (grid : RGrid)
    (header_end num_rows : Nat) (lc : Int) : Nat → ScanSt → Nat → ScanSt
  | _, st, 0 => st
  | row_idx, st, fuel + 1 =>
    if row_idx < header_end then
      match grid_find grid (row_idx, lc) with
      | none => scan_col rows grid header_end num_rows lc (row_idx + 1) st fuel
      | some ci =>
        if (row_idx, ci) ∈ st.removed then
          scan_col rows grid header_end num_rows lc (row_idx + 1) st fuel
        else if (row_idx, ci) ∈ st.processed then
          scan_col rows grid header_end num_rows lc (row_idx + 1) st fuel
        else if !(((rows.get? row_idx).map (·.is_header)).getD false) then
          scan_col rows grid header_end num_rows lc (row_idx + 1) st fuel
        else
          match store_get st.store row_idx ci with
          | none => scan_col rows grid header_end num_rows lc (row_idx + 1) st fuel
          | some cell =>
            if !cell.has_bottom_border then
              let mo := merge_loop st.store grid header_end num_rows lc
                (row_idx + 1) (header_end + 1)
              let span := 1 + mo.span_add
              if 1 < span then
                -- `merged_text_parts`: Python's conditional appends build
                -- exactly this filter over origin :: absorbed texts.
                let parts := (cell.text :: mo.texts).filter fun t => pyTrim t ≠ ""
                let ntext := remove_hyphenation (String.intercalate " " parts)
                let cell2 := { cell with rowspan := (span : Int), text := ntext }
                let st2 : ScanSt :=
                  { store := store_set st.store row_idx ci cell2,
                    removed := st.removed ++ mo.removed,
                    processed := st.processed ++ [(row_idx, ci)],
                    merges := st.merges ++ [⟨row_idx, ci, cell.text, mo.texts, ntext⟩] }
                scan_col rows grid header_end num_rows lc mo.merge_row st2 fuel
              else
                scan_col rows grid header_end num_rows lc (row_idx + 1)
                  { st with processed := st.processed ++ [(row_idx, ci)] } fuel
            else
              scan_col rows grid header_end num_rows lc (row_idx + 1)
                { st with processed := st.processed ++ [(row_idx, ci)] } fuel
    else st

def scan_cols (rows : List NormalizedRow) (grid : RGrid)
    (header_end num_rows : Nat) (cols : List Int) (st : ScanSt) : ScanSt :=
  cols.foldl
    (fun s lc => scan_col rows grid header_end num_rows lc 0 s (header_end + 1)) st

/-- The final deletion pass: popping the marked indices in descending order
equals filtering them out by position. -/
def keep_unremoved (rem : List (Nat × Nat)) (r : Nat) :
    Nat → List NormalizedCell → List NormalizedCell
  | _, [] => []
  | j, c :: cs =>
    if (r, j) ∈ rem then keep_unremoved rem r (j + 1) cs
    else c :: keep_unremoved rem r (j + 1) cs

def remove_marked (rem : List (Nat × Nat)) : Nat → CellStore → CellStore
  | _, [] => []
  | r, cs :: rest => keep_unremoved rem r 0 cs :: remove_marked rem (r + 1) rest

/-- Reattach the transformed cell lists to the rows' flags. -/
def with_cells : List NormalizedRow → CellStore → List NormalizedRow
  | [], _ => []
  | row :: rs, [] => row :: rs
  | row :: rs, cs :: css => { row with cells := cs } :: with_cells rs css

/-- The boundary search of `_apply_rowspan`: the column-numbers row if any,
otherwise the first non-header row. -/
def header_end_idx (rows : List NormalizedRow) : Option Nat :=
  match rows.findIdx? (·.is_column_numbers) with
  | some k => some k
  | none => rows.findIdx? fun r => !r.is_header

/-- `_apply_rowspan`, also returning the log of executed merges. -/
def apply_rowspan_full (rows : List NormalizedRow) :
    List NormalizedRow × List MergeRec :=
  if rows.length < 2 then (rows, [])
  else
    match header_end_idx rows with
    | none => (rows, [])
    | some k =>
      if k < 1 then (rows, [])
      else
        let grid := build_grid rows 0 []
        let store0 : CellStore := rows.map (·.cells)
        let cols := range_int 0 (grid_max_col grid + 1)
        let st := scan_cols rows grid k rows.length cols ⟨store0, [], [], []⟩
        let store1 := remove_marked st.removed 0 st.store
        (with_cells rows store1, st.merges)

def apply_rowspan (rows : List NormalizedRow) : List NormalizedRow :=
  (apply_rowspan_full rows).1

/-- `TableNormalizer._analyze_and_normalize` (body-row merging is disabled
in the source and therefore absent here). -/
def analyze_and_normalize (rows : List NormalizedRow) : NormalizedTable :=
  if rows.isEmpty then { rows := [] }
  else if is_form_table rows then create_simple_table rows none
  else
    let ci := find_col_numbers_idx rows
    let cw := find_canonical_widths rows ci
    if cw.isEmpty then create_simple_table rows ci
    else
      let nrows := mapWithIdx
        (fun i row =>
          let ih := match ci with | some k => decide (i < k) | none => false
          { cells := (normalize_row_cells row.cells cw).map
              fun c => { c with is_header := ih },
            is_header := ih,
            is_column_numbers := ci == some i })
        0 rows
      { rows := apply_rowspan nrows }

/-! ## Confinement of the rowspan pass (towards C8) -/

theorem get?_setAt_ne {α : Type} (l : List α) (n i : Nat) (f : α → α)
    (h : i ≠ n) : (setAt l n f).get? i = l.get? i := by
  induction l generalizing n i with
  | nil => rfl
  | cons x xs ih =>
    match n, i with
    | 0, 0 => exact absurd rfl h
    | 0, j + 1 => rfl
    | m + 1, 0 => rfl
    | m + 1, j + 1 =>
      simp only [setAt, List.get?]
      exact ih m j (by omega)

theorem store_set_get?_ne (s : CellStore) (r i : Nat) (c : NormalizedCell)
    (r' : Nat) (h : r' ≠ r) : (store_set s r i c).get? r' = s.get? r' :=
  get?_setAt_ne s r r' _ h

/-- Every cell position marked for removal by the inner merge loop lies at a
row index `≤ header_end`. -/
theorem merge_loop_removed_le (store : CellStore) (grid : RGrid)
    (he nr : Nat) (lc : Int) :
    ∀ (fuel mr : Nat) (e : Nat × Nat),
      e ∈ (merge_loop store grid he nr lc mr fuel).removed → e.1 ≤ he := by
  intro fuel
  induction fuel with
  | zero => intro mr e he'; simp [merge_loop] at he'
  | succ fuel ih =>
    intro mr e hmem
    rw [merge_loop] at hmem
    split at hmem
    case isTrue hg =>
      split at hmem
      · simp at hmem
      · split at hmem
        · simp at hmem
        · split at hmem
          case isTrue hbb =>
            simp at hmem
            rw [hmem]
            exact hg.1
          case isFalse hbb =>
            simp only [List.mem_cons] at hmem
            rcases hmem with h1 | h2
            · rw [h1]; exact hg.1
            · exact ih (mr + 1) e h2
    case isFalse hg => simp at hmem

/-- The scan state `st'` differs from `st` only at rows `< k` and by
removal marks at rows `≤ k`. -/
def confined (k : Nat) (st st' : ScanSt) : Prop :=
  (∀ r, k ≤ r → st'.store.get? r = st.store.get? r) ∧
  (∀ e ∈ st'.removed, e ∈ st.removed ∨ e.1 ≤ k)

theorem confined_refl (k : Nat) (st : ScanSt) : confined k st st :=
  ⟨fun _ _ => rfl, fun _ he => Or.inl he⟩

theorem confined_trans {k : Nat} {st1 st2 st3 : ScanSt}
    (h12 : confined k st1 st2) (h23 : confined k st2 st3) :
    confined k st1 st3 := by
  refine ⟨fun r hr => (h23.1 r hr).trans (h12.1 r hr), fun e he => ?_⟩
  rcases h23.2 e he with h | h
  · exact h12.2 e h
  · exact Or.inr h

/-- One column scan of `_apply_rowspan` only updates the store at header
rows (`< header_end`) and only marks removals at rows `≤ header_end`. -/
theorem scan_col_confined (rows : List NormalizedRow) (grid : RGrid)
    (k nr : Nat) (lc : Int) :
    ∀ (fuel row_idx : Nat) (st : ScanSt),
      confined k st (scan_col rows grid k nr lc row_idx st fuel) := by
  intro fuel
  induction fuel with
  | zero => intro row_idx st; rw [scan_col]; exact confined_refl k st
  | succ fuel ih =>
    intro row_idx st
    simp only [scan_col]
    split
    case isTrue h =>
      split
      case h_1 => exact ih _ _
      case h_2 ci _ =>
        split
        · exact ih _ _
        · split
          · exact ih _ _
          · split
            · exact ih _ _
            · split
              case h_1 => exact ih _ _
              case h_2 cell _ =>
                split
                case isTrue =>
                  split
                  case isTrue =>
                    refine confined_trans ?_ (ih _ _)
                    refine ⟨fun r hr => ?_, fun e he => ?_⟩
                    · exact store_set_get?_ne st.store row_idx ci _ r (by omega)
                    · rcases List.mem_append.mp he with h1 | h2
                      · exact Or.inl h1
                      · exact Or.inr
                          (merge_loop_removed_le st.store grid k nr lc _ _ e h2)
                  case isFalse =>
                    refine confined_trans ?_ (ih _ _)
                    exact ⟨fun _ _ => rfl, fun _ he => Or.inl he⟩
                case isFalse =>
                  refine confined_trans ?_ (ih _ _)
                  exact ⟨fun _ _ => rfl, fun _ he => Or.inl he⟩
    case isFalse => exact confined_refl k st

theorem scan_cols_confined (rows : List NormalizedRow) (grid : RGrid)
    (k nr : Nat) :
    ∀ (cols : List Int) (st : ScanSt),
      confined k st (scan_cols rows grid k nr cols st) := by
  intro cols
  induction cols with
  | nil => intro st; exact confined_refl k st
  | cons c cs ih =>
    intro st
    exact confined_trans (scan_col_confined rows grid k nr c _ 0 st) (ih _)

theorem remove_marked_get? (rem : List (Nat × Nat)) :
    ∀ (store : CellStore) (r0 i : Nat),
      (remove_marked rem r0 store).get? i =
        (store.get? i).map (keep_unremoved rem (r0 + i) 0) := by
  intro store
  induction store with
  | nil => intro r0 i; rfl
  | cons cs rest ih =>
    intro r0 i
    match i with
    | 0 => rfl
    | j + 1 =>
      simp only [remove_marked, List.get?]
      rw [ih (r0 + 1) j]
      have harith : r0 + 1 + j = r0 + (j + 1) := by omega
      rw [harith]

theorem keep_unremoved_id (rem : List (Nat × Nat)) (r : Nat)
    (h : ∀ j, (r, j) ∉ rem) :
    ∀ (j0 : Nat) (cs : List NormalizedCell), keep_unremoved rem r j0 cs = cs := by
  intro j0 cs
  induction cs generalizing j0 with
  | nil => rfl
  | cons c rest ih =>
    rw [keep_unremoved]
    rw [if_neg (h j0)]
    rw [ih (j0 + 1)]

theorem with_cells_get?_none (rows : List NormalizedRow) (store : CellStore)
    (i : Nat) (h : rows.get? i = none) :
    (with_cells rows store).get? i = none := by
  induction rows generalizing store i with
  | nil => cases store <;> rfl
  | cons row rest ih =>
    match store with
    | [] => exact h
    | cs :: css =>
      match i with
      | 0 => simp at h
      | j + 1 =>
        simp only [with_cells, List.get?]
        exact ih css j (by simpa using h)

theorem with_cells_get?_some (rows : List NormalizedRow) (store : CellStore)
    (i : Nat) (row : NormalizedRow) (cs : List NormalizedCell)
    (hr : rows.get? i = some row) (hs : store.get? i = some cs) :
    (with_cells rows store).get? i = some { row with cells := cs } := by
  induction rows generalizing store i with
  | nil => simp at hr
  | cons row0 rest ih =>
    match store with
    | [] => simp at hs
    | cs0 :: css =>
      match i with
      | 0 =>
        simp at hr hs
        subst hr; subst hs
        rfl
      | j + 1 =>
        simp only [with_cells, List.get?]
        exact ih css j (by simpa using hr) (by simpa using hs)

/-- C8: header rowspan inference never merges or deletes a cell of a data
row: every row strictly after the column-index row is returned by
`_apply_rowspan` completely unchanged (cells, texts, rowspans), regardless
of border flags; and when no header/column-index boundary exists at all the
pass returns every row unchanged. -/
theorem c8_rowspan_preserves_data_rows :
    (∀ (rows : List NormalizedRow) (k : Nat),
      rows.findIdx? (·.is_column_numbers) = some k →
      ∀ i, k < i → (apply_rowspan rows).get? i = rows.get? i) ∧
    (∀ rows : List NormalizedRow, header_end_idx rows = none →
      apply_rowspan rows = rows) := by
  constructor
  · intro rows k hfind i hi
    have hhe : header_end_idx rows = some k := by
      unfold header_end_idx; rw [hfind]
    unfold apply_rowspan apply_rowspan_full
    by_cases h2 : rows.length < 2
    · rw [if_pos h2]
    · rw [if_neg h2, hhe]
      dsimp only
      by_cases hk1 : k < 1
      · rw [if_pos hk1]
      · rw [if_neg hk1]
        set grid := build_grid rows 0 [] with hgrid
        set store0 : CellStore := rows.map (·.cells) with hstore0
        set cols := range_int 0 (grid_max_col grid + 1) with hcols
        set st := scan_cols rows grid k rows.length cols ⟨store0, [], [], []⟩
          with hst
        have hconf := scan_cols_confined rows grid k rows.length cols
          ⟨store0, [], [], []⟩
        rw [← hst] at hconf
        have hstore_i : st.store.get? i = store0.get? i :=
          hconf.1 i (by omega)
        have hrem : ∀ j, (i, j) ∉ st.removed := by
          intro j hj
          rcases hconf.2 (i, j) hj with h | h
          · simp at h
          · simp at h; omega
        have hstore1 : (remove_marked st.removed 0 st.store).get? i =
            (st.store.get? i).map (keep_unremoved st.removed i 0) := by
          have := remove_marked_get? st.removed st.store 0 i
          simpa using this
        match hr : rows.get? i with
        | none =>
          rw [with_cells_get?_none rows _ i hr]
        | some row =>
          have hs0 : store0.get? i = some row.cells := by
            rw [hstore0, List.get?_map, hr]; rfl
          have hs1 : (remove_marked st.removed 0 st.store).get? i =
              some (keep_unremoved st.removed i 0 row.cells) := by
            rw [hstore1, hstore_i, hs0]; rfl
          rw [with_cells_get?_some rows _ i row
            (keep_unremoved st.removed i 0 row.cells) hr hs1]
          rw [keep_unremoved_id st.removed i hrem 0 row.cells]
  · intro rows h
    unfold apply_rowspan apply_rowspan_full
    by_cases h2 : rows.length < 2
    · rw [if_pos h2]
    · rw [if_neg h2, h]

/-! ## C2: the synthetic two-row header -/

/-- A header-scenario cell: text, width, bottom-border flag, border code. -/
def mkWCell (t : String) (w : Nat) (hbb : Bool) (bc : Nat) : NormalizedCell :=
  { text := t, width := some w, has_bottom_border := hbb, has_top_border := true,
    border_code := bc }

/-- Row 1: two cells of widths [100, 200], no bottom border (even border
codes); row 2: the column-index row "1", "2" with bottom borders. -/
def c2rows : List NormalizedRow :=
  [ ⟨[mkWCell "A" 100 false 14, mkWCell "B" 200 false 14], false, false⟩,
    ⟨[mkWCell "1" 100 true 15, mkWCell "2" 200 true 15], false, false⟩ ]

/-- C2: on the synthetic two-row header (row 1: widths [100, 200] without
bottom borders; row 2: the column-index row with bottom borders), header
rowspan inference gives each of row 1's cells `rowspan = 2`, removes both of
row 2's cells, and leaves row 2 empty; row 2 is recognized as the
column-index row. -/
theorem c2_two_row_header_rowspan :
    ((analyze_and_normalize c2rows).rows.map fun r => r.cells.map (·.rowspan))
        = [[2, 2], []] ∧
    ((analyze_and_normalize c2rows).rows.map fun r => r.cells.length)
        = [2, 0] ∧
    ((analyze_and_normalize c2rows).rows.map fun r =>
        (r.is_header, r.is_column_numbers)) = [(true, false), (false, true)] :=
  ⟨rfl, rfl, rfl⟩

/-! ## C4: merged header text -/

/-- Well-formedness of a logged merge: the written text is the non-empty
originating texts joined by single spaces, hyphenation-repaired. -/
def merge_rec_wf (rec : MergeRec) : Prop :=
  rec.new_text = remove_hyphenation (String.intercalate " "
    ((rec.origin_text :: rec.absorbed).filter fun t => pyTrim t ≠ ""))

theorem scan_col_merges_wf (rows : List NormalizedRow) (grid : RGrid)
    (k nr : Nat) (lc : Int) :
    ∀ (fuel row_idx : Nat) (st : ScanSt),
      (∀ rec ∈ st.merges, merge_rec_wf rec) →
      ∀ rec ∈ (scan_col rows grid k nr lc row_idx st fuel).merges,
        merge_rec_wf rec := by
  intro fuel
  induction fuel with
  | zero => intro row_idx st h; rw [scan_col]; exact h
  | succ fuel ih =>
    intro row_idx st h
    simp only [scan_col]
    split
    case isTrue hrow =>
      split
      case h_1 => exact ih _ _ h
      case h_2 ci _ =>
        split
        · exact ih _ _ h
        · split
          · exact ih _ _ h
          · split
            · exact ih _ _ h
            · split
              case h_1 => exact ih _ _ h
              case h_2 cell _ =>
                split
                case isTrue =>
                  split
                  case isTrue =>
                    refine ih _ _ ?_
                    intro rec hrec
                    rcases List.mem_append.mp hrec with h1 | h2
                    · exact h rec h1
                    · simp only [List.mem_singleton] at h2
                      subst h2
                      rfl
                  case isFalse => exact ih _ _ h
                case isFalse => exact ih _ _ h
    case isFalse => exact h

theorem scan_cols_merges_wf (rows : List NormalizedRow) (grid : RGrid)
    (k nr : Nat) :
    ∀ (cols : List Int) (st : ScanSt),
      (∀ rec ∈ st.merges, merge_rec_wf rec) →
      ∀ rec ∈ (scan_cols rows grid k nr cols st).merges, merge_rec_wf rec := by
  intro cols
  induction cols with
  | nil => intro st h; exact h
  | cons c cs ih =>
    intro st h
    exact ih _ (scan_col_merges_wf rows grid k nr c _ 0 st h)

theorem apply_rowspan_merges_wf (rows : List NormalizedRow) :
    ∀ rec ∈ (apply_rowspan_full rows).2, merge_rec_wf rec := by
  intro rec hrec
  unfold apply_rowspan_full at hrec
  by_cases h2 : rows.length < 2
  · rw [if_pos h2] at hrec; simp at hrec
  · rw [if_neg h2] at hrec
    match hhe : header_end_idx rows with
    | none => rw [hhe] at hrec; simp at hrec
    | some k =>
      rw [hhe] at hrec
      dsimp only at hrec
      by_cases hk1 : k < 1
      · rw [if_pos hk1] at hrec; simp at hrec
      · rw [if_neg hk1] at hrec
        exact scan_cols_merges_wf rows _ k rows.length _ _ (by simp) rec hrec

/-- C4 (amended): every header cell text written by a rowspan merge equals
the originating cells' non-empty texts joined by single spaces with
hyphenation repaired, where the repaired pattern is
word-character–hyphen–space(s)–word-character (word characters include
uppercase letters, digits and underscore — not only lowercase letters); a
hyphen not followed by a space (more generally, any text without the
pattern) is left unchanged. -/
theorem c4_merged_header_text :
    (∀ (rows : List NormalizedRow) (rec : MergeRec),
      rec ∈ (apply_rowspan_full rows).2 →
      rec.new_text = remove_hyphenation (String.intercalate " "
        ((rec.origin_text :: rec.absorbed).filter fun t => pyTrim t ≠ ""))) ∧
    (∀ s : String, hasHyphBreak s.data = false → remove_hyphenation s = s) ∧
    remove_hyphenation "Опаковка и раз- фасовка" = "Опаковка и разфасовка" ∧
    remove_hyphenation "дума-две" = "дума-две" := by
  refine ⟨?_, ?_, rfl, rfl⟩
  · intro rows rec hrec
    exact apply_rowspan_merges_wf rows rec hrec
  · intro s h
    unfold remove_hyphenation
    rw [removeHyphChars, removeHyph_of_no_break_aux _ _ h]

/-- Rows driving the C4 counterexample: row 1's first cell text ends in
`"A-"` (uppercase before the hyphen) and lacks a bottom border; row 2's
first cell is `"B"` with a bottom border; row 3 is the column-index row. -/
def c4rows : List NormalizedRow :=
  [ ⟨[mkWCell "A-" 100 false 14, mkWCell "X" 200 true 15], false, false⟩,
    ⟨[mkWCell "B" 100 true 15, mkWCell "Y" 200 true 15], false, false⟩,
    ⟨[mkWCell "1" 100 true 15, mkWCell "2" 200 true 15], false, false⟩ ]

/-- A lowercase-only hyphenation repair following the words of the spec
("only a lowercase-letter–hyphen–space–lowercase-letter pattern is
repaired"); used solely to compare the spec's description with the code. -/
def isLowerLetter (c : Char) : Bool :=
  c.isLower || (decide (0x430 ≤ c.toNat) && decide (c.toNat ≤ 0x44F)) ||
    c.toNat == 0x451

def specSkipSpacesLower : List Char → Option (Char × List Char)
  | [] => none
  | c :: rest =>
    if c == ' ' then specSkipSpacesLower rest
    else if isLowerLetter c then some (c, rest) else none

def specSpacesThenLower : List Char → Option (Char × List Char)
  | ' ' :: rest => specSkipSpacesLower rest
  | _ => none

def specHyphMatchLower (c1 : Char) (rest : List Char) :
    Option (Char × List Char) :=
  if isLowerLetter c1 then
    match rest with
    | c :: rest2 => if c == '-' then specSpacesThenLower rest2 else none
    | [] => none
  else none

def specLowercaseRepairGo : Nat → List Char → List Char
  | 0, l => l
  | _, [] => []
  | fuel + 1, c1 :: rest =>
    match specHyphMatchLower c1 rest with
    | some (c2, rest2) => c1 :: c2 :: specLowercaseRepairGo fuel rest2
    | none => c1 :: specLowercaseRepairGo fuel rest

def spec_lowercase_repair (s : String) : String :=
  ⟨specLowercaseRepairGo s.data.length s.data⟩

/-- C4 counterexample: merging the header texts `"A-"` and `"B"` (uppercase
letter before the hyphen), the code produces `"AB"`, while the claim's
lowercase-only repair of the joined text `"A- B"` leaves it unchanged — so
the merged cell text is not the lowercase-only repair of the join. -/
theorem c4_counterexample :
    ((analyze_and_normalize c4rows).rows.map fun r => r.cells.map (·.text)) =
      [["AB", "X"], ["Y"], ["1", "2"]] ∧
    String.intercalate " " (["A-", "B"].filter fun t => pyTrim t ≠ "") = "A- B" ∧
    spec_lowercase_repair "A- B" = "A- B" ∧
    ("AB" : String) ≠ "A- B" :=
  ⟨rfl, by rfl, rfl, by decide⟩

/-- The rows of `c4rows` after colspan normalization and header flagging,
as `_analyze_and_normalize` feeds them to `_apply_rowspan`. -/
def c4nrows : List NormalizedRow :=
  mapWithIdx
    (fun i row =>
      { cells := (normalize_row_cells row.cells [100, 200]).map
          fun c => { c with is_header := decide (i < 2) },
        is_header := decide (i < 2),
        is_column_numbers := (some 2 : Option Nat) == some i })
    0 c4rows

/-- C4 witness: the theorem instantiated at the concrete merge performed on
`c4nrows` and at a concrete break-free string. -/
theorem c4_merged_header_text_witness :
    (⟨0, 0, "A-", ["B"], "AB"⟩ : MergeRec) ∈ (apply_rowspan_full c4nrows).2 ∧
    (⟨0, 0, "A-", ["B"], "AB"⟩ : MergeRec).new_text =
      remove_hyphenation (String.intercalate " "
        ((("A-" : String) :: ["B"]).filter fun t => pyTrim t ≠ "")) ∧
    hasHyphBreak ("дума-две" : String).data = false ∧
    remove_hyphenation "дума-две" = "дума-две" := by
  refine ⟨by decide, ?_, by decide, ?_⟩
  · exact c4_merged_header_text.1 c4nrows ⟨0, 0, "A-", ["B"], "AB"⟩ (by decide)
  · exact c4_merged_header_text.2.1 "дума-две" (by decide)

/-- Concrete rows for the C8 witness: header row, column-index row, data
row whose cell lacks a bottom border. -/
def c8rows : List NormalizedRow :=
  [ ⟨[{ text := "H", has_bottom_border := false }], true, false⟩,
    ⟨[{ text := "1" }, { text := "2" }], false, true⟩,
    ⟨[{ text := "d1", has_bottom_border := false }, { text := "d2" }], false, false⟩ ]

/-- Rows with headers only and no column-index row (no boundary). -/
def c8rows2 : List NormalizedRow :=
  [ ⟨[{ text := "a" }], true, false⟩, ⟨[{ text := "b" }], true, false⟩ ]

/-- C8 witness: both conjuncts instantiated concretely. -/
theorem c8_rowspan_preserves_data_rows_witness :
    c8rows.findIdx? (·.is_column_numbers) = some 1 ∧
    (1 : Nat) < 2 ∧
    (apply_rowspan c8rows).get? 2 = c8rows.get? 2 ∧
    header_end_idx c8rows2 = none ∧
    apply_rowspan c8rows2 = c8rows2 := by
  refine ⟨by decide, by decide, ?_, by decide, ?_⟩
  · exact c8_rowspan_preserves_data_rows.1 c8rows 1 (by decide) 2 (by decide)
  · exact c8_rowspan_preserves_data_rows.2 c8rows2 (by decide)

/-- C10 witness: the argmin theorem instantiated at position 100 over the
boundaries `[0, 100, 300]`. -/
theorem c10_find_nearest_column_argmin_witness :
    (([0, 100, 300] : List Nat) ≠ []) ∧
    find_nearest_column 100 [0, 100, 300] < 3 ∧
    (∀ k, k < ([0, 100, 300] : List Nat).length →
      pxDist (([0, 100, 300] : List Nat).getD
          (find_nearest_column 100 [0, 100, 300]) 0) 100 ≤
        pxDist (([0, 100, 300] : List Nat).getD k 0) 100) ∧
    (∀ k, k < ([0, 100, 300] : List Nat).length →
      pxDist (([0, 100, 300] : List Nat).getD k 0) 100 =
        pxDist (([0, 100, 300] : List Nat).getD
          (find_nearest_column 100 [0, 100, 300]) 0) 100 →
      find_nearest_column 100 [0, 100, 300] ≤ k) := by
  have h := c10_find_nearest_column_argmin 100 [0, 100, 300] (by decide)
  exact ⟨by decide, h.1, h.2.1, h.2.2⟩

/-! ## C7: rendered cell attributes (`NormalizedCell.to_html`) -/

/-- The attributes `to_html` emits for a cell: the tag, the `colspan` /
`rowspan` attributes (emitted only when `> 1`), and the inline styles. -/
structure RenderedCellAttrs where
  tag : String
  colspan_attr : Option Int := none
  rowspan_attr : Option Int := none
  styles : List String := []
deriving DecidableEq

def render_cell_attrs (c : NormalizedCell) : RenderedCellAttrs :=
  let widthStyles : List String :=
    match c.width with
    | some w => if w == 0 then [] else ["width: " ++ toString w ++ "px"]
    | none => []
  let effAlign := if c.is_header then "center" else c.align
  let alignStyles : List String :=
    if effAlign ≠ "left" then ["text-align: " ++ effAlign] else []
  let borderStyles : List String :=
    if 0 < c.border_code then
      (if c.border_code.testBit 3 then ["border-left: 1px solid"] else []) ++
      (if c.border_code.testBit 2 then ["border-right: 1px solid"] else []) ++
      (if c.border_code.testBit 1 then ["border-top: 1px solid"] else []) ++
      (if c.border_code.testBit 0 then ["border-bottom: 1px solid"] else [])
    else []
  { tag := if c.is_header then "th" else "td",
    colspan_attr := if 1 < c.colspan then some c.colspan else none,
    rowspan_attr := if 1 < c.rowspan then some c.rowspan else none,
    styles := widthStyles ++ alignStyles ++ borderStyles }

/-- The effective colspan of a rendered cell: the emitted attribute, or the
HTML default 1 when the attribute is omitted. -/
def rendered_colspan (rc : RenderedCellAttrs) : Int := rc.colspan_attr.getD 1

def rendered_rowspan (rc : RenderedCellAttrs) : Int := rc.rowspan_attr.getD 1

/-- C7: every cell of every table produced by `_analyze_and_normalize`
(data-table path, including the `_create_simple_table` fallback) renders
with effective `colspan ≥ 1` and `rowspan ≥ 1`: the attribute is only
emitted when `> 1` and otherwise defaults to 1. -/
theorem c7_rendered_spans_ge_one :
    ∀ (rows : List NormalizedRow), ∀ row ∈ (analyze_and_normalize rows).rows,
      ∀ c ∈ row.cells,
        1 ≤ rendered_colspan (render_cell_attrs c) ∧
        1 ≤ rendered_rowspan (render_cell_attrs c) := by
  intro rows row _ c _
  constructor
  · unfold rendered_colspan render_cell_attrs
    dsimp only
    by_cases h : 1 < c.colspan
    · rw [if_pos h]; simpa using Int.le_of_lt h
    · rw [if_neg h]; rfl
  · unfold rendered_rowspan render_cell_attrs
    dsimp only
    by_cases h : 1 < c.rowspan
    · rw [if_pos h]; simpa using Int.le_of_lt h
    · rw [if_neg h]; rfl

/-- C7 witness: instantiated at a one-cell table flowing through the
simple-table fallback. -/
theorem c7_rendered_spans_ge_one_witness :
    (⟨[{ text := "x" }], false, false⟩ : NormalizedRow) ∈
      (analyze_and_normalize [⟨[{ text := "x" }], false, false⟩]).rows ∧
    ({ text := "x" } : NormalizedCell) ∈
      (⟨[{ text := "x" }], false, false⟩ : NormalizedRow).cells ∧
    1 ≤ rendered_colspan (render_cell_attrs { text := "x" }) ∧
    1 ≤ rendered_rowspan (render_cell_attrs { text := "x" }) := by
  have h := c7_rendered_spans_ge_one [⟨[{ text := "x" }], false, false⟩]
    ⟨[{ text := "x" }], false, false⟩ (by decide) { text := "x" } (by decide)
  exact ⟨by decide, by decide, h.1, h.2⟩

/-! ## Table-level classification (`_is_title_table`, `_is_form_table_group`,
`_is_data_table`) and merging (`_merge_tables`) -/

/-- An `L`/`C`/`R`-prefixed (the source checks `cls[0] in 'LCR'`, not `J`)
all-digit class declaring a border code `> 0`. -/
def lcr_border_pos (cls : String) : Bool :=
  match cls.data with
  | c0 :: c1 :: cs =>
    (c0 == 'L' || c0 == 'C' || c0 == 'R') && pyIsDigit ⟨c1 :: cs⟩ &&
      decide (0 < digitsToNat (c1 :: cs))
  | _ => false

/-- The width test of `_is_title_table`: a present, nonempty width attribute
whose leading digits parse must be `≥ 500`; otherwise the cell passes. -/
def title_width_ok (cell : HtmlCell) : Bool :=
  match cell.width_attr with
  | none => true
  | some w =>
    if w == "" then true
    else
      match leadingNat w with
      | some n => decide (500 ≤ n)
      | none => true

/-- `_is_title_table`: at most 3 rows; every row exactly one cell; no cell
with an `L`/`C`/`R`-prefixed all-digit class whose code is `> 0`; every
declared parseable width is `≥ 500`. -/
def is_title_table (t : HtmlTable) : Bool :=
  if 3 < t.rows.length then false
  else t.rows.all fun row =>
    match row.cells with
    | [cell] =>
      if cell.classes.any lcr_border_pos then false
      else title_width_ok cell
    | _ => false

/-- `_extract_table_title`: non-empty cleaned cell texts joined by an
explicit `<br/>`. -/
def extract_table_title (t : HtmlTable) : Option String :=
  let texts := ((t.rows.flatMap (·.cells)).map fun c => cleanText c.text).filter
    (· ≠ "")
  if texts.isEmpty then none else some (String.intercalate "<br/>" texts)

/-- `table.get_text()` in the flat model: concatenation of cell texts. -/
def table_get_text (t : HtmlTable) : String :=
  String.join ((t.rows.flatMap (·.cells)).map (·.text))

/-- `_is_form_table_group`: per-row `<td>` counts (empty rows skipped),
at least 4 distinct counts, and at least 5 distinct counts or a form
keyword in the combined upper-cased text. -/
def is_form_table_group (tables : List HtmlTable) : Bool :=
  if tables.length < 3 then false
  else
    let cell_counts := tables.flatMap fun t =>
      (t.rows.map fun r => (r.cells.filter fun c => c.tag == "td").length).filter
        (· ≠ 0)
    let uniq := cell_counts.dedup.length
    if uniq < 4 then false
    else
      let combined := pyUpper (String.intercalate " " (tables.map table_get_text))
      let kw := form_keywords.any fun k => containsSubstr combined k
      if 5 ≤ uniq then true
      else if decide (4 ≤ uniq) && kw then true
      else false

/-- `_is_data_table` (row-level check used by the hidden-border path). -/
def is_data_table (rows : List NormalizedRow) : Bool :=
  if rows.length < 2 then false
  else if !(rows.any fun r => r.cells.any fun c => 0 < c.border_code) then false
  else
    match rows.map (·.cells.length) with
    | [] => false
    | c0 :: crest =>
      let mx := crest.foldl max c0
      let mn := crest.foldl min c0
      if mx == mn && decide (2 ≤ mx) then true
      else if decide (2 ≤ mn) && decide (mx ≤ mn * 2) then true
      else false

def extract_rows_many : List HtmlTable → Except String (List NormalizedRow)
  | [] => .ok []
  | t :: ts =>
    match extract_rows t with
    | .error e => .error e
    | .ok rows =>
      match extract_rows_many ts with
      | .error e => .error e
      | .ok rest => .ok (rows ++ rest)

/-- `_merge_tables`: skip the empty `def` table, refuse form groups, split
title tables from content tables, extract and concatenate content rows,
require at least one bordered cell, then analyze; `none` = "keep the
original tables". -/
def merge_tables (tables : List HtmlTable) : Except String (Option NormalizedTable) :=
  if tables.isEmpty then .ok none
  else
    let deffix := tables.filter fun t => t.classes.contains "defFix"
    if deffix.isEmpty then .ok none
    else if is_form_table_group deffix then .ok none
    else
      let title := ((deffix.filter is_title_table).filterMap extract_table_title).head?
      let content := deffix.filter fun t => !is_title_table t
      if content.isEmpty then .ok none
      else
        match extract_rows_many content with
        | .error e => .error e
        | .ok all_rows =>
          if all_rows.isEmpty then .ok none
          else if !(all_rows.any fun r => r.cells.any fun c => 0 < c.border_code)
          then .ok none
          else
            let normalized := analyze_and_normalize all_rows
            match title with
            | some s => .ok (some { normalized with title := some s })
            | none => .ok (some normalized)

/-! ## Inline-style passes (`_apply_inline_borders_to_tables`,
`_apply_inline_styles_to_single_table`) -/

/-- The class loop of `_apply_inline_borders_to_tables`: `break` only when
an alignment-prefixed class has an all-digit remainder. -/
def firstClassCode : List String → Nat
  | [] => 0
  | cls :: rest =>
    match cls.data with
    | c0 :: c1 :: cs =>
      if (alignForLetter c0).isSome && pyIsDigit ⟨c1 :: cs⟩ then
        digitsToNat (c1 :: cs)
      else firstClassCode rest
    | _ => firstClassCode rest

def borderStylesFor (border_code : Nat) : List String :=
  if 0 < border_code then
    (if border_code.testBit 3 then ["border-left: 1px solid"] else []) ++
    (if border_code.testBit 2 then ["border-right: 1px solid"] else []) ++
    (if border_code.testBit 1 then ["border-top: 1px solid"] else []) ++
    (if border_code.testBit 0 then ["border-bottom: 1px solid"] else [])
  else []

def widthStyleFor (width_attr : Option String) : List String :=
  match width_attr with
  | none => []
  | some w =>
    if w == "" then []
    else if pyIsDigit w then ["width: " ++ w ++ "px"]
    else ["width: " ++ w]

/-- Append new inline styles to a cell's existing style attribute. -/
def appendCellStyles (cell : HtmlCell) (new_styles : List String) : HtmlCell :=
  if new_styles.isEmpty then cell
  else
    let s := String.intercalate "; " new_styles
    match cell.style with
    | some es => if es ≠ "" then { cell with style := some (es ++ "; " ++ s) }
                 else { cell with style := some s }
    | none => { cell with style := some s }

def inline_border_cell (cell : HtmlCell) : HtmlCell :=
  appendCellStyles cell
    (widthStyleFor cell.width_attr ++ borderStylesFor (firstClassCode cell.classes))

/-- `border-collapse` added to a table's style attribute if absent. -/
def addBorderCollapse (t : HtmlTable) : HtmlTable :=
  let existing := t.style.getD ""
  if containsSubstr existing "border-collapse" then t
  else if existing ≠ "" then
    { t with style := some (existing ++ "; border-collapse: collapse") }
  else { t with style := some "border-collapse: collapse" }

/-- `_apply_inline_borders_to_tables` restricted to one table of the group:
non-`defFix` tables are skipped entirely. -/
def apply_inline_borders_one (t : HtmlTable) : HtmlTable :=
  if !(t.classes.contains "defFix") then t
  else
    let t2 := addBorderCollapse t
    { t2 with rows := t2.rows.map fun r =>
        { r with cells := r.cells.map inline_border_cell } }

def apply_inline_borders_to_tables (tables : List HtmlTable) : List HtmlTable :=
  tables.map apply_inline_borders_one

/-- The class loop of `_apply_inline_styles_to_single_table`: `break` at the
first alignment-prefixed class; the alignment is only set for `L`/`C`/`R`
(not `J`); the code only if the remainder is all digits. -/
def singleClassCodeAlign : List String → Nat × Option String
  | [] => (0, none)
  | cls :: rest =>
    match cls.data with
    | c0 :: c1 :: cs =>
      if (alignForLetter c0).isSome then
        let alignment : Option String :=
          if c0 == 'L' then some "left"
          else if c0 == 'C' then some "center"
          else if c0 == 'R' then some "right"
          else none
        (if pyIsDigit ⟨c1 :: cs⟩ then digitsToNat (c1 :: cs) else 0, alignment)
      else singleClassCodeAlign rest
    | _ => singleClassCodeAlign rest

def inline_style_cell (cell : HtmlCell) : HtmlCell :=
  let ca := singleClassCodeAlign cell.classes
  let alignStyles : List String :=
    match ca.2 with
    | some a => ["text-align: " ++ a]
    | none => []
  appendCellStyles cell
    (widthStyleFor cell.width_attr ++ alignStyles ++ borderStylesFor ca.1)

/-- `_apply_inline_styles_to_single_table`. -/
def apply_inline_styles_single (t : HtmlTable) : HtmlTable :=
  let t2 := addBorderCollapse t
  { t2 with rows := t2.rows.map fun r =>
      { r with cells := r.cells.map inline_style_cell } }

/-- `_has_hidden_borders`. -/
def has_hidden_borders (t : HtmlTable) : Bool :=
  (t.rows.flatMap (·.cells)).any fun cell =>
    cell.classes.any fun cls =>
      match cls.data with
      | c0 :: c1 :: cs =>
        (alignForLetter c0).isSome && pyIsDigit ⟨c1 :: cs⟩ &&
          decide (0 < digitsToNat (c1 :: cs))
      | _ => false

/-! ## C3: border code and derived flags -/

/-- The border code the class scan of `_extract_rows` parses: the first
alignment-prefixed class fixes the outcome (`break`); its digits — if the
remainder is all digits — give the code, otherwise no code is parsed. -/
def class_code? (classes : List String) : Option Nat :=
  match classes.find? (fun cls =>
    match cls.data with
    | c0 :: _ :: _ => (alignForLetter c0).isSome
    | _ => false) with
  | none => none
  | some cls =>
    if pyIsDigit ⟨cls.data.drop 1⟩ then some (digitsToNat (cls.data.drop 1))
    else none

theorem classAlignBorder_spec (classes : List String) :
    (classAlignBorder classes).2.1 = (class_code? classes).getD 0 ∧
    (classAlignBorder classes).2.2.1 = (match class_code? classes with
      | some n => n % 2 == 1
      | none => true) ∧
    (classAlignBorder classes).2.2.2 = (match class_code? classes with
      | some n => n / 2 % 2 == 1
      | none => false) := by
  induction classes with
  | nil => exact ⟨rfl, rfl, rfl⟩
  | cons cls rest ih =>
    match hd : cls.data with
    | [] =>
      simp only [classAlignBorder, class_code?, List.find?, hd]
      rw [class_code?] at ih
      exact ih
    | [c0] =>
      simp only [classAlignBorder, class_code?, List.find?, hd]
      rw [class_code?] at ih
      exact ih
    | c0 :: c1 :: cs =>
      by_cases ha : (alignForLetter c0).isSome
      · match hal : alignForLetter c0 with
        | none => rw [hal] at ha; simp at ha
        | some al =>
          simp only [classAlignBorder, class_code?, List.find?, hd, hal,
            Option.isSome_some, if_pos]
          by_cases hdig : pyIsDigit ⟨c1 :: cs⟩
          · simp [hdig]
          · simp [hdig]
      · match hal : alignForLetter c0 with
        | some al => rw [hal] at ha; simp at ha
        | none =>
          simp only [classAlignBorder, class_code?, List.find?, hd, hal,
            Option.isSome_none, Bool.false_eq_true, if_false]
          rw [class_code?] at ih
          exact ih

/-- C3 (amended): for every extracted cell, the stored bottom/top border
flags equal bits 0 and 1 of the parsed border code when the cell's class
parses to a code (the code itself being the unbounded parsed number, not
clamped to `[0, 15]`); when no class parses a code, `border_code` is 0 while
the flags default to bottom = true, top = false — not the bit decomposition
of 0.  Left/right flags are not stored at all; rendering derives them from
`border_code` directly. -/
theorem c3_border_flags :
    ∀ (hc : HtmlCell) (nc : NormalizedCell), extract_cell hc = .ok nc →
      nc.border_code = (class_code? hc.classes).getD 0 ∧
      nc.has_bottom_border = (match class_code? hc.classes with
        | some n => n % 2 == 1
        | none => true) ∧
      nc.has_top_border = (match class_code? hc.classes with
        | some n => n / 2 % 2 == 1
        | none => false) := by
  intro hc nc h
  unfold extract_cell at h
  match hcs : (match hc.colspan_attr with | none => some 1 | some s => pyInt s) with
  | none => rw [hcs] at h; exact absurd h (by simp)
  | some cs =>
    rw [hcs] at h
    match hrs : (match hc.rowspan_attr with | none => some 1 | some s => pyInt s) with
    | none => rw [hrs] at h; exact absurd h (by simp)
    | some rs =>
      rw [hrs] at h
      simp only [Except.ok.injEq] at h
      subst h
      exact classAlignBorder_spec hc.classes

/-- C3 counterexample: a cell with class `"L16"` extracts with
`border_code = 16`, outside `[0, 15]`. -/
theorem c3_counterexample :
    extract_cell { classes := ["L16"] } =
      .ok { text := "", colspan := 1, rowspan := 1, width := none,
            align := "left", is_header := false, has_bottom_border := false,
            has_top_border := false, border_code := 16 } ∧
    ¬ ((16 : Nat) ≤ 15) := ⟨rfl, by decide⟩

/-- C3 witness: the amended theorem at a concrete `"C3"`-classed cell. -/
theorem c3_border_flags_witness :
    extract_cell { classes := ["C3"] } =
      .ok { text := "", colspan := 1, rowspan := 1, width := none,
            align := "center", is_header := false, has_bottom_border := true,
            has_top_border := true, border_code := 3 } ∧
    ({ text := "", colspan := 1, rowspan := 1, width := none,
       align := "center", is_header := false, has_bottom_border := true,
       has_top_border := true, border_code := 3 } : NormalizedCell).border_code =
      (class_code? ["C3"]).getD 0 := by
  refine ⟨rfl, ?_⟩
  exact (c3_border_flags { classes := ["C3"] } _ rfl).1

/-! ## C5: form groups receive only style changes -/

def erase_styles_cell (c : HtmlCell) : HtmlCell := { c with style := none }

def erase_styles_row (r : HtmlRow) : HtmlRow :=
  { r with cells := r.cells.map erase_styles_cell }

def erase_styles_table (t : HtmlTable) : HtmlTable :=
  { t with style := none, rows := t.rows.map erase_styles_row }

theorem erase_appendCellStyles (cell : HtmlCell) (s : List String) :
    erase_styles_cell (appendCellStyles cell s) = erase_styles_cell cell := by
  unfold appendCellStyles
  split
  · rfl
  · split
    · split <;> rfl
    · rfl

theorem erase_inline_border_cell (cell : HtmlCell) :
    erase_styles_cell (inline_border_cell cell) = erase_styles_cell cell :=
  erase_appendCellStyles cell _

theorem addBorderCollapse_fields (t : HtmlTable) :
    (addBorderCollapse t).classes = t.classes ∧
    (addBorderCollapse t).border = t.border ∧
    (addBorderCollapse t).tableformat = t.tableformat ∧
    (addBorderCollapse t).rows = t.rows := by
  unfold addBorderCollapse
  dsimp only
  split
  · exact ⟨rfl, rfl, rfl, rfl⟩
  · split <;> exact ⟨rfl, rfl, rfl, rfl⟩

theorem erase_apply_inline_borders_one (t : HtmlTable) :
    erase_styles_table (apply_inline_borders_one t) = erase_styles_table t := by
  unfold apply_inline_borders_one
  split
  · rfl
  · unfold erase_styles_table
    obtain ⟨h1, h2, h3, h4⟩ := addBorderCollapse_fields t
    dsimp only
    rw [h1, h2, h3, h4]
    congr 1
    rw [List.map_map]
    apply List.map_congr_left
    intro r _
    unfold erase_styles_row
    simp only [Function.comp_apply, List.map_map]
    congr 1
    apply List.map_congr_left
    intro c _
    exact erase_inline_border_cell c

/-- C5: for every table group classified as a form, `_merge_tables` keeps
the originals (`none`) and the applied inline-border pass changes nothing
except the style attributes of the tables and their cells — cell texts,
classes, widths, spans, row and cell membership and order are identical. -/
theorem c5_form_group_style_only (tables : List HtmlTable)
    (hform : is_form_table_group
      (tables.filter fun t => t.classes.contains "defFix") = true) :
    merge_tables tables = .ok none ∧
    (apply_inline_borders_to_tables tables).map erase_styles_table =
      tables.map erase_styles_table := by
  constructor
  · have hne : ¬tables.isEmpty := by
      intro h
      rw [List.isEmpty_iff] at h
      subst h
      simp [is_form_table_group] at hform
    have hdne : ¬(tables.filter fun t => t.classes.contains "defFix").isEmpty := by
      intro h
      rw [List.isEmpty_iff] at h
      rw [h] at hform
      simp [is_form_table_group] at hform
    unfold merge_tables
    rw [if_neg hne]
    dsimp only
    rw [if_neg hdne, if_pos hform]
  · unfold apply_inline_borders_to_tables
    simp only [List.map_map]
    apply List.map_congr_left
    intro t _
    exact erase_apply_inline_borders_one t

/-- A concrete form group: three `defFix` tables with 5 distinct per-row
`<td>` counts. -/
def c5tables : List HtmlTable :=
  [ { classes := ["defFix"],
      rows := [⟨List.replicate 1 {}⟩, ⟨List.replicate 2 {}⟩] },
    { classes := ["defFix"],
      rows := [⟨List.replicate 3 {}⟩, ⟨List.replicate 4 {}⟩] },
    { classes := ["defFix"], rows := [⟨List.replicate 5 {}⟩] } ]

/-- C5 witness: the theorem at the concrete form group. -/
theorem c5_form_group_style_only_witness :
    is_form_table_group
      (c5tables.filter fun t => t.classes.contains "defFix") = true ∧
    merge_tables c5tables = .ok none ∧
    (apply_inline_borders_to_tables c5tables).map erase_styles_table =
      c5tables.map erase_styles_table := by
  have h := c5_form_group_style_only c5tables (by decide)
  exact ⟨by decide, h.1, h.2⟩

/-! ## C6: title tables -/

theorem analyze_title_none (rows : List NormalizedRow) :
    (analyze_and_normalize rows).title = none := by
  unfold analyze_and_normalize
  split
  · rfl
  · split
    · rfl
    · dsimp only
      split
      · rfl
      · rfl

/-- C6 (amended): a table is classified as title exactly when it has `≤ 3`
rows, every row has exactly one cell, no cell carries an `L`/`C`/`R`-prefixed
digit class with code `> 0` (a `J`-prefixed class is not checked), and every
declared parseable width is `≥ 500` (absent or unparseable widths pass); a
title table's rows are excluded from the merged output (which is built from
the non-title `defFix` tables only) and the first title table's text, rows
joined by `<br/>`, becomes the `title` field. -/
theorem c6_title_classification :
    (∀ t : HtmlTable, is_title_table t = true ↔
      (t.rows.length ≤ 3 ∧ ∀ row ∈ t.rows, ∃ cell, row.cells = [cell] ∧
        (∀ cls ∈ cell.classes, lcr_border_pos cls = false) ∧
        title_width_ok cell = true)) ∧
    (∀ (tables : List HtmlTable) (nt : NormalizedTable),
      merge_tables tables = .ok (some nt) →
      nt.title = (((tables.filter fun t => t.classes.contains "defFix").filter
          is_title_table).filterMap extract_table_title).head? ∧
      ∃ all_rows, extract_rows_many
          ((tables.filter fun t => t.classes.contains "defFix").filter
            fun t => !is_title_table t) = .ok all_rows ∧
        nt.rows = (analyze_and_normalize all_rows).rows) := by
  constructor
  · intro t
    unfold is_title_table
    by_cases hlen : 3 < t.rows.length
    · rw [if_pos hlen]
      constructor
      · intro hx; exact absurd hx (by simp)
      · rintro ⟨h1, _⟩; exact absurd h1 (by omega)
    · rw [if_neg hlen]
      rw [List.all_eq_true]
      constructor
      · intro hall
        refine ⟨by omega, ?_⟩
        intro row hrow
        have hthis := hall row hrow
        match hc : row.cells with
        | [] => rw [hc] at hthis; simp at hthis
        | [cell] =>
          rw [hc] at hthis
          dsimp only at hthis
          by_cases hany : cell.classes.any lcr_border_pos
          · rw [if_pos hany] at hthis; simp at hthis
          · rw [if_neg hany] at hthis
            refine ⟨cell, rfl, ?_, hthis⟩
            intro cls hcls
            by_cases h : lcr_border_pos cls
            · exact absurd (List.any_eq_true.mpr ⟨cls, hcls, h⟩) hany
            · simpa using h
        | c1 :: c2 :: cs => rw [hc] at hthis; simp at hthis
      · rintro ⟨hlen3, hrows⟩
        intro row hrow
        obtain ⟨cell, hcells, hcls, hwid⟩ := hrows row hrow
        rw [hcells]
        dsimp only
        rw [if_neg ?hna]
        case hna =>
          intro hx
          obtain ⟨cls, hm, hp⟩ := List.any_eq_true.mp hx
          rw [hcls cls hm] at hp
          exact absurd hp (by simp)
        exact hwid
  · intro tables nt h
    unfold merge_tables at h
    split at h
    · simp at h
    · dsimp only at h
      split at h
      · simp at h
      · split at h
        · simp at h
        · split at h
          · simp at h
          · split at h
            · simp at h
            · next all_rows hext =>
              split at h
              · simp at h
              · split at h
                · simp at h
                · split at h
                  case h_1 s heq =>
                    simp only [Except.ok.injEq, Option.some.injEq] at h
                    subst h
                    refine ⟨by rw [heq], all_rows, hext, rfl⟩
                  case h_2 heq =>
                    simp only [Except.ok.injEq, Option.some.injEq] at h
                    subst h
                    refine ⟨by rw [heq, analyze_title_none], all_rows, hext, rfl⟩

/-- A one-row, one-cell table with class `"J5"` and width 600: its cell
declares border code 5 through the `J` prefix. -/
def c6jtable : HtmlTable :=
  { classes := ["defFix"],
    rows := [⟨[{ classes := ["J5"], width_attr := some "600", text := "T" }]⟩] }

/-- C6 counterexample: `c6jtable` is classified as a title table although
its only cell declares border code 5 > 0 (via the `J`-prefixed class the
extractor parses), refuting the claimed "exactly when ... no cell declares a
border code > 0". -/
theorem c6_counterexample :
    is_title_table c6jtable = true ∧
    extract_rows c6jtable = .ok
      [⟨[{ text := "T", colspan := 1, rowspan := 1, width := some 600,
           align := "justify", is_header := false, has_bottom_border := true,
           has_top_border := false, border_code := 5 }], false, false⟩] ∧
    (0 : Nat) < 5 := ⟨rfl, rfl, by decide⟩

def c6def : HtmlTable := { classes := ["def"] }

def c6titleTable : HtmlTable :=
  { classes := ["defFix"],
    rows := [⟨[{ text := "Title", width_attr := some "600" }]⟩] }

def c6dataTable : HtmlTable :=
  { classes := ["defFix"],
    rows := [
      ⟨[{ classes := ["C14"], width_attr := some "100", text := "h1" },
        { classes := ["C14"], width_attr := some "200", text := "h2" }]⟩,
      ⟨[{ classes := ["C15"], width_attr := some "100", text := "1" },
        { classes := ["C15"], width_attr := some "200", text := "2" }]⟩ ] }

/-- The result of merging `[c6def, c6titleTable, c6dataTable]`. -/
def c6merged : NormalizedTable :=
  { rows := [
      { cells := [
          { text := "h1 1", colspan := 1, rowspan := 2, width := some 100,
            align := "center", is_header := true, has_bottom_border := false,
            has_top_border := true, border_code := 14 },
          { text := "h2 2", colspan := 1, rowspan := 2, width := some 200,
            align := "center", is_header := true, has_bottom_border := false,
            has_top_border := true, border_code := 14 }],
        is_header := true, is_column_numbers := false },
      { cells := [], is_header := false, is_column_numbers := true }],
    title := some "Title", notes := none }

/-- C6 witness: the classification iff at `c6titleTable` and the merge
conclusion at the concrete group. -/
theorem c6_title_classification_witness :
    is_title_table c6titleTable = true ∧
    merge_tables [c6def, c6titleTable, c6dataTable] = .ok (some c6merged) ∧
    c6merged.title = ((([c6def, c6titleTable, c6dataTable].filter
        fun t => t.classes.contains "defFix").filter
        is_title_table).filterMap extract_table_title).head? ∧
    (∃ all_rows, extract_rows_many
        (([c6def, c6titleTable, c6dataTable].filter
          fun t => t.classes.contains "defFix").filter
          fun t => !is_title_table t) = .ok all_rows ∧
      c6merged.rows = (analyze_and_normalize all_rows).rows) ∧
    (c6titleTable.rows.length ≤ 3 ∧ ∀ row ∈ c6titleTable.rows,
      ∃ cell, row.cells = [cell] ∧
        (∀ cls ∈ cell.classes, lcr_border_pos cls = false) ∧
        title_width_ok cell = true) := by
  have h2 := c6_title_classification.2 [c6def, c6titleTable, c6dataTable]
    c6merged (by rfl)
  have h1 := (c6_title_classification.1 c6titleTable).mp (by rfl)
  exact ⟨rfl, rfl, h2.1, h2.2, h1⟩

/-! ## Style cleaner (`TableNormalizer._clean_black_color_styles`)

Each `re.sub` pass is a left-to-right scanner with Python's non-overlapping
leftmost-match semantics; all passes are case-insensitive.  Scanners are
fuel-structural (fuel = input length; every match consumes at least one
character). -/

def ciEq (a b : Char) : Bool := a.toLower == b.toLower

/-- Case-insensitive literal token match; returns the rest on success. -/
def matchToken : List Char → List Char → Option (List Char)
  | [], l => some l
  | _ :: _, [] => none
  | t :: ts, c :: cs => if ciEq t c then matchToken ts cs else none

/-- `re.sub(r'\btok\s+', '', ...)`: token at a word boundary followed by at
least one whitespace character; the boundary is judged against the previous
character of the original string. -/
def subTokSpaceGo (tok : List Char) : Nat → Option Char → List Char → List Char
  | 0, _, l => l
  | _, _, [] => []
  | fuel + 1, prev, c :: cs =>
    let boundary := match prev with | none => true | some p => !isWordChar p
    let res : Option (List Char) :=
      if boundary then
        match matchToken tok (c :: cs) with
        | some rest =>
          if (rest.takeWhile pySpace).isEmpty then none
          else some (rest.dropWhile pySpace)
        | none => none
      else none
    match res with
    | some rest2 => subTokSpaceGo tok fuel (some ' ') rest2
    | none => c :: subTokSpaceGo tok fuel (some c) cs

def subTokSpace (tok : String) (l : List Char) : List Char :=
  subTokSpaceGo tok.data l.length none l

/-- `re.sub(r'\s+tok\b', '', ...)`: whitespace run, token, then a boundary
(end of string or a non-word character). -/
def subSpaceTokGo (tok : List Char) : Nat → List Char → List Char
  | 0, l => l
  | _, [] => []
  | fuel + 1, c :: cs =>
    let res : Option (List Char) :=
      if pySpace c then
        match matchToken tok ((c :: cs).dropWhile pySpace) with
        | some rest2 =>
          match rest2 with
          | [] => some rest2
          | c2 :: _ => if isWordChar c2 then none else some rest2
        | none => none
      else none
    match res with
    | some rest2 => subSpaceTokGo tok fuel rest2
    | none => c :: subSpaceTokGo tok fuel cs

def subSpaceTok (tok : String) (l : List Char) : List Char :=
  subSpaceTokGo tok.data l.length l

/-- Generic `re.sub(pattern, rep, ...)` scanner for a matcher that consumes
at least one character. -/
def subScanGo (m : List Char → Option (List Char)) (rep : List Char) :
    Nat → List Char → List Char
  | 0, l => l
  | _, [] => []
  | fuel + 1, c :: cs =>
    match m (c :: cs) with
    | some rest => rep ++ subScanGo m rep fuel rest
    | none => c :: subScanGo m rep fuel cs

def subScan (m : List Char → Option (List Char)) (rep : List Char)
    (l : List Char) : List Char :=
  subScanGo m rep l.length l

/-- `name\s*:\s*value\s*;?` (both tokens case-insensitive). -/
def matchPropValue (name value : String) (l : List Char) : Option (List Char) :=
  (matchToken name.data l).bind fun r1 =>
  match r1.dropWhile pySpace with
  | ':' :: r3 =>
    (matchToken value.data (r3.dropWhile pySpace)).bind fun r5 =>
    match r5.dropWhile pySpace with
    | ';' :: r7 => some r7
    | r6 => some r6
  | _ => none

/-- `color\s*:\s*(?=;|["'>]|$)`: the lookahead is not consumed. -/
def matchColorEmpty (l : List Char) : Option (List Char) :=
  (matchToken "color".data l).bind fun r1 =>
  match r1.dropWhile pySpace with
  | ':' :: r3 =>
    match r3.dropWhile pySpace with
    | [] => some []
    | c :: cs =>
      if c == ';' || c == '"' || c == '\'' || c == '>' then some (c :: cs)
      else none
  | _ => none

def isHexF (c : Char) : Bool := c == 'f' || c == 'F'

def isHexEF (c : Char) : Bool := c == 'e' || c == 'E' || c == 'f' || c == 'F'

/-- Consume one character of class `p` if present (`[..]?`). -/
def takeOpt (p : Char → Bool) : List Char → List Char
  | [] => []
  | c :: cs => if p c then cs else c :: cs

/-- `background\s*:\s*#[fF][eEfF][fF]?[eEfF]?[fF]?[eEfF]?\s*;?`. -/
def matchBgNearWhite (l : List Char) : Option (List Char) :=
  (matchToken "background".data l).bind fun r1 =>
  match r1.dropWhile pySpace with
  | ':' :: r3 =>
    match r3.dropWhile pySpace with
    | '#' :: a :: b :: r6 =>
      if isHexF a && isHexEF b then
        let r10 := takeOpt isHexEF (takeOpt isHexF (takeOpt isHexEF (takeOpt isHexF r6)))
        match r10.dropWhile pySpace with
        | ';' :: r12 => some r12
        | r11 => some r11
      else none
    | _ => none
  | _ => none

/-- `MARGIN-LEFT\s*:\s*[\d.]+\s*pt\s*;?`. -/
def matchMarginLeft (l : List Char) : Option (List Char) :=
  (matchToken "margin-left".data l).bind fun r1 =>
  match r1.dropWhile pySpace with
  | ':' :: r3 =>
    let r4 := r3.dropWhile pySpace
    if (r4.takeWhile fun c => c.isDigit || c == '.').isEmpty then none
    else
      match matchToken "pt".data
        ((r4.dropWhile fun c => c.isDigit || c == '.').dropWhile pySpace) with
      | some r7 =>
        match r7.dropWhile pySpace with
        | ';' :: r9 => some r9
        | r8 => some r8
      | none => none
  | _ => none

/-- `;\s*;` replaced by `;`. -/
def matchSemiSemi : List Char → Option (List Char)
  | ';' :: r1 =>
    (match r1.dropWhile pySpace with
     | ';' :: r2 => some r2
     | _ => none)
  | _ => none

/-- The full per-style cleaning of `_clean_black_color_styles`, pass by
pass in source order. -/
def clean_black_style (s : String) : String :=
  let l1 := subTokSpace "black" s.data
  let l2 := subSpaceTok "black" l1
  let l3 := subTokSpace "windowtext" l2
  let l4 := subSpaceTok "windowtext" l3
  let l5 := subScan (matchPropValue "color" "black") [] l4
  let l6 := subScan matchColorEmpty [] l5
  let l7 := subScan (matchPropValue "background" "white") [] l6
  let l8 := subScan matchBgNearWhite [] l7
  let l9 := subScan matchMarginLeft [] l8
  let l10 := collapseWs l9
  let l11 := subScan matchSemiSemi [';'] l10
  ⟨stripChars (fun c => c == ' ' || c == ';') l11⟩

/-! ## Document model and `normalize_html`

A document is a flat list of sibling items: tables, `<br/>` elements, text
nodes, and other styled elements.  Tables contain no nested tables (the
repository's `def`/`defFix` tables are flat), so the ciela2014 wrapper
detection of `_unwrap_ciela2014_wrapper_tables` never fires — its only
effect on this domain is deleting the `tableformat` attribute. -/

inductive DocItem where
  | table (t : HtmlTable)
  | br
  | textnode (s : String)
  | elem (tag : String) (style : Option String)
  | rendered (nt : NormalizedTable)
deriving DecidableEq, Repr

/-- `element['style']` rewriting of `_clean_black_color_styles`: elements
without the attribute are untouched, an empty attribute is skipped
(`if not style: continue`), and an attribute emptied by cleaning is
deleted. -/
def clean_style_opt : Option String → Option String
  | none => none
  | some s =>
    if s == "" then some ""
    else
      let r := clean_black_style s
      if r == "" then none else some r

def clean_cell (c : HtmlCell) : HtmlCell := { c with style := clean_style_opt c.style }

def clean_row (r : HtmlRow) : HtmlRow := { r with cells := r.cells.map clean_cell }

def clean_table (t : HtmlTable) : HtmlTable :=
  { t with style := clean_style_opt t.style, rows := t.rows.map clean_row }

def clean_item : DocItem → DocItem
  | .table t => .table (clean_table t)
  | .elem tag st => .elem tag (clean_style_opt st)
  | .br => .br
  | .textnode s => .textnode s
  | .rendered nt => .rendered nt

def clean_black_color_styles (doc : List DocItem) : List DocItem :=
  doc.map clean_item

/-- `_unwrap_ciela2014_wrapper_tables` on the flat domain: with no nested
tables the wrapper test (`has_inner_table`) always fails, so the pass only
deletes the `tableformat` attribute from every table. -/
def unwrap_item : DocItem → DocItem
  | .table t => .table { t with tableformat := none }
  | x => x

def unwrap_wrapper_tables (doc : List DocItem) : List DocItem :=
  doc.map unwrap_item

def is_ws_text : DocItem → Bool
  | .textnode s => pyTrim s == ""
  | _ => false

/-- A sibling `_find_table_group` skips over: whitespace text or `<br/>`. -/
def is_sep_item : DocItem → Bool
  | .br => true
  | .textnode s => pyTrim s == ""
  | _ => false

def is_def_table_item : DocItem → Bool
  | .table t => t.classes.contains "def" && !(t.classes.contains "defFix")
  | _ => false

def is_table_item : DocItem → Bool
  | .table _ => true
  | _ => false

/-- The `defFix` table view of an item (the group scan's continuation
test). -/
def as_deffix_table : DocItem → Option HtmlTable
  | .table t => if t.classes.contains "defFix" then some t else none
  | _ => none

/-- The `def`-placeholder table view of an item (`'def' in classes and
'defFix' not in classes`). -/
def as_def_table : DocItem → Option HtmlTable
  | .table t =>
    if t.classes.contains "def" && !(t.classes.contains "defFix") then some t
    else none
  | _ => none

/-- `_find_table_group` past the `def` table: collect `(separators, defFix
table)` segments; stop at the first other item, which stays in the
document together with any pending separators. -/
def take_group_aux : List DocItem → List DocItem →
    List (List DocItem × HtmlTable) × List DocItem
  | sep, [] => ([], sep.reverse)
  | sep, it :: rest =>
    if is_sep_item it then take_group_aux (it :: sep) rest
    else
      match as_deffix_table it with
      | some t =>
        let sr := take_group_aux [] rest
        ((sep.reverse, t) :: sr.1, sr.2)
      | none => ([], sep.reverse ++ it :: rest)

theorem take_group_aux_length : ∀ (items sep : List DocItem),
    (take_group_aux sep items).2.length ≤ sep.length + items.length ∧
    ((take_group_aux sep items).1 ≠ [] →
      (take_group_aux sep items).2.length < sep.length + items.length) := by
  intro items
  induction items with
  | nil =>
    intro sep
    simp [take_group_aux]
  | cons it rest ih =>
    intro sep
    rw [take_group_aux]
    by_cases hsep : is_sep_item it
    · simp only [hsep, if_true]
      have := ih (it :: sep)
      constructor
      · have h1 := this.1; simp at h1 ⊢; omega
      · intro hne
        have h2 := this.2 hne
        simp at h2 ⊢; omega
    · simp only [hsep, Bool.false_eq_true, if_false]
      match as_deffix_table it with
      | some t =>
        have h1 := (ih []).1
        constructor
        · simp only [List.length_cons, List.length_nil, Nat.zero_add] at h1 ⊢
          omega
        · intro _
          simp only [List.length_cons, List.length_nil, Nat.zero_add] at h1 ⊢
          omega
      | none =>
        refine ⟨?_, fun hne => absurd rfl hne⟩
        simp only [List.length_append, List.length_reverse, List.length_cons]
        omega

/-- The `prev_sibling` `<br/>` removal: skipping trailing whitespace text of
the already-emitted items (here in reversed order), delete a `<br/>`. -/
def drop_br_before (acc : List DocItem) : List DocItem :=
  match acc.dropWhile is_ws_text with
  | .br :: rest2 => acc.takeWhile is_ws_text ++ rest2
  | _ => acc

def drop_last_br (sep : List DocItem) : List DocItem :=
  (drop_br_before sep.reverse).reverse

/-- The table-group scan of `_normalize_tables_in_soup` over the sibling
list; `acc` is the already-processed prefix in reverse.  For a `def` table
whose group is nonempty, a successful merge replaces the group with the
rendered table (deleting the `<br/>` preceding each group table); a form
group (`merge_tables = none`) keeps the tables, restyled in place.
Fuel-structural: every step consumes at least one item, so fuel = document
length always suffices. -/
def groups_pass_go : Nat → List DocItem → List DocItem → Except String (List DocItem)
  | 0, acc, items => .ok (acc.reverse ++ items)
  | _, acc, [] => .ok acc.reverse
  | fuel + 1, acc, it :: rest =>
    match as_def_table it with
    | some deft =>
      match take_group_aux [] rest with
      | ([], _) => groups_pass_go fuel (it :: acc) rest
      | (seg :: segs, rem) =>
        match merge_tables (deft :: (seg :: segs).map (·.2)) with
        | .error e => .error e
        | .ok (some nt) =>
          groups_pass_go fuel
            (((seg :: segs).flatMap fun sg => drop_last_br sg.1).reverse ++
              DocItem.rendered nt :: drop_br_before acc) rem
        | .ok none =>
          groups_pass_go fuel
            (((seg :: segs).flatMap fun sg =>
              sg.1 ++ [DocItem.table (apply_inline_borders_one sg.2)]).reverse ++
              it :: acc) rem
    | none => groups_pass_go fuel (it :: acc) rest

def groups_pass (doc : List DocItem) : Except String (List DocItem) :=
  groups_pass_go (doc.length + 1) [] doc

/-- `_normalize_single_hidden_bordered_table`. -/
def normalize_single_hidden (t : HtmlTable) : Except String DocItem :=
  match extract_rows t with
  | .error e => .error e
  | .ok rows =>
    if rows.isEmpty then .ok (.table (apply_inline_styles_single t))
    else if !is_data_table rows then .ok (.table (apply_inline_styles_single t))
    else
      let nt := analyze_and_normalize rows
      if nt.rows.isEmpty then .ok (.table (apply_inline_styles_single t))
      else .ok (.rendered nt)

/-- `_normalize_hidden_bordered_tables`, per item. -/
def hidden_pass_item : DocItem → Except String DocItem
  | .table t =>
    if t.classes.contains "defFix" then
      let border := t.border.getD ""
      if border ≠ "" ∧ border ≠ "0" then .ok (.table t)
      else if has_hidden_borders t then normalize_single_hidden t
      else .ok (.table (apply_inline_styles_single t))
    else .ok (.table t)
  | x => .ok x

def hidden_pass : List DocItem → Except String (List DocItem)
  | [] => .ok []
  | it :: rest =>
    match hidden_pass_item it with
    | .error e => .error e
    | .ok it2 =>
      match hidden_pass rest with
      | .error e => .error e
      | .ok rest2 => .ok (it2 :: rest2)

/-- `TableNormalizer.normalize_html` on the document model: style cleaning,
wrapper unwrapping, table-group merging, hidden-border normalization. -/
def normalize_doc (doc : List DocItem) : Except String (List DocItem) :=
  match groups_pass (unwrap_wrapper_tables (clean_black_color_styles doc)) with
  | .error e => .error e
  | .ok d3 => hidden_pass d3

/-! ## C9: table-free documents -/

theorem groups_pass_go_no_tables :
    ∀ (fuel : Nat) (items acc : List DocItem), items.length < fuel →
      (∀ it ∈ items, is_table_item it = false) →
      groups_pass_go fuel acc items = .ok (acc.reverse ++ items) := by
  intro fuel
  induction fuel with
  | zero => intro items acc hlen _; simp at hlen
  | succ fuel ih =>
    intro items acc hlen h
    match items with
    | [] => simp [groups_pass_go]
    | it :: rest =>
      rw [groups_pass_go]
      have hne : as_def_table it = none := by
        have := h it (by simp)
        cases it <;> simp_all [as_def_table, is_table_item]
      rw [hne]
      rw [ih rest (it :: acc) (by simp at hlen ⊢; omega)
        (fun x hx => h x (by simp [hx]))]
      simp

theorem hidden_pass_no_tables :
    ∀ items : List DocItem,
      (∀ it ∈ items, is_table_item it = false) →
      hidden_pass items = .ok items := by
  intro items
  induction items with
  | nil => intro _; rfl
  | cons it rest ih =>
    intro h
    have hit : hidden_pass_item it = .ok it := by
      have := h it (by simp)
      cases it <;> simp_all [hidden_pass_item, is_table_item]
    rw [hidden_pass, hit, ih (fun x hx => h x (by simp [hx]))]

/-- C9 (amended): `normalize_html` on a table-free document performs exactly
the style-cleaning pass on every element and nothing else.  (Style cleaning
itself is *not* idempotent — see the counterexample — so the idempotence
part of the claim is dropped.) -/
theorem c9_no_tables_normalize (doc : List DocItem)
    (h : ∀ it ∈ doc, is_table_item it = false) :
    normalize_doc doc = .ok (doc.map clean_item) := by
  have h1 : ∀ it ∈ doc.map clean_item, is_table_item it = false := by
    intro it hit
    obtain ⟨x, hx, rfl⟩ := List.mem_map.mp hit
    have := h x hx
    cases x <;> simp_all [clean_item, is_table_item]
  have h2 : unwrap_wrapper_tables (clean_black_color_styles doc) =
      doc.map clean_item := by
    unfold unwrap_wrapper_tables clean_black_color_styles
    have hcongr : ∀ x ∈ doc.map clean_item, unwrap_item x = id x := by
      intro x hx
      have := h1 x hx
      cases x <;> simp_all [unwrap_item, is_table_item]
    rw [List.map_congr_left hcongr, List.map_id]
  unfold normalize_doc groups_pass
  rw [h2, groups_pass_go_no_tables ((doc.map clean_item).length + 1)
    (doc.map clean_item) [] (by omega) h1]
  simp only [List.reverse_nil, List.nil_append]
  exact hidden_pass_no_tables (doc.map clean_item) h1

/-- C9 counterexample: on the table-free document whose single element has
style `"a;  ;  ;b"`, one `normalize` produces style `"a; ;b"`, and a second
`normalize` produces `"a;b"` — the second pass is not a no-op, so style
cleaning is not idempotent. -/
theorem c9_counterexample :
    normalize_doc [DocItem.elem "div" (some "a;  ;  ;b")] =
      .ok [DocItem.elem "div" (some "a; ;b")] ∧
    normalize_doc [DocItem.elem "div" (some "a; ;b")] =
      .ok [DocItem.elem "div" (some "a;b")] ∧
    [DocItem.elem "div" (some "a; ;b")] ≠ [DocItem.elem "div" (some "a;b")] :=
  ⟨rfl, rfl, by decide⟩

/-- C9 witness: the amended theorem at a concrete table-free document. -/
theorem c9_no_tables_normalize_witness :
    (∀ it ∈ [DocItem.elem "p" (some "color: black; margin-left: 2pt"),
      DocItem.br], is_table_item it = false) ∧
    normalize_doc [DocItem.elem "p" (some "color: black; margin-left: 2pt"),
      DocItem.br] =
      .ok ([DocItem.elem "p" (some "color: black; margin-left: 2pt"),
        DocItem.br].map clean_item) := by
  refine ⟨by decide, ?_⟩
  exact c9_no_tables_normalize _ (by decide)

/-! ## C1: the only failure mode is an unparseable colspan/rowspan -/

/-- A cell whose `colspan`/`rowspan` attributes `int()`-parse (or are
absent). -/
def cell_spans_ok (c : HtmlCell) : Bool :=
  (match c.colspan_attr with | none => true | some s => (pyInt s).isSome) &&
  (match c.rowspan_attr with | none => true | some s => (pyInt s).isSome)

def table_spans_ok (t : HtmlTable) : Bool :=
  (t.rows.flatMap (·.cells)).all cell_spans_ok

/-- All tables of a document fragment have parseable span attributes. -/
def AllTablesOk (l : List DocItem) : Prop :=
  ∀ t : HtmlTable, DocItem.table t ∈ l → table_spans_ok t = true

theorem extract_cell_ok (hc : HtmlCell) (h : cell_spans_ok hc = true) :
    ∃ nc, extract_cell hc = .ok nc := by
  unfold cell_spans_ok at h
  rw [Bool.and_eq_true] at h
  unfold extract_cell
  match hcs : (match hc.colspan_attr with | none => some 1 | some s => pyInt s) with
  | none =>
    exfalso
    match hw : hc.colspan_attr with
    | none => rw [hw] at hcs; simp at hcs
    | some s =>
      rw [hw] at hcs
      have hcs2 : pyInt s = none := hcs
      have h1 := h.1
      rw [hw] at h1
      have h1b : (pyInt s).isSome = true := h1
      rw [hcs2] at h1b
      simp at h1b
  | some cs =>
    match hrs : (match hc.rowspan_attr with | none => some 1 | some s => pyInt s) with
    | none =>
      exfalso
      match hw : hc.rowspan_attr with
      | none => rw [hw] at hrs; simp at hrs
      | some s =>
        rw [hw] at hrs
        have hrs2 : pyInt s = none := hrs
        have h2 := h.2
        rw [hw] at h2
        have h2b : (pyInt s).isSome = true := h2
        rw [hrs2] at h2b
        simp at h2b
    | some rs =>
      exact ⟨_, rfl⟩

theorem extract_cells_ok :
    ∀ cells : List HtmlCell, (∀ c ∈ cells, cell_spans_ok c = true) →
      ∃ l, extract_cells cells = .ok l := by
  intro cells
  induction cells with
  | nil => intro _; exact ⟨[], rfl⟩
  | cons c cs ih =>
    intro h
    obtain ⟨nc, hnc⟩ := extract_cell_ok c (h c (by simp))
    obtain ⟨l, hl⟩ := ih (fun x hx => h x (by simp [hx]))
    rw [extract_cells, hnc, hl]
    exact ⟨_, rfl⟩

theorem extract_rows_list_ok :
    ∀ rows : List HtmlRow, (∀ r ∈ rows, ∀ c ∈ r.cells, cell_spans_ok c = true) →
      ∃ l, extract_rows_list rows = .ok l := by
  intro rows
  induction rows with
  | nil => intro _; exact ⟨[], rfl⟩
  | cons r rs ih =>
    intro h
    obtain ⟨cells, hcells⟩ := extract_cells_ok r.cells (h r (by simp))
    obtain ⟨l, hl⟩ := ih (fun x hx => h x (by simp [hx]))
    rw [extract_rows_list, hcells, hl]
    exact ⟨_, rfl⟩

theorem extract_rows_ok (t : HtmlTable) (h : table_spans_ok t = true) :
    ∃ l, extract_rows t = .ok l := by
  rw [table_spans_ok, List.all_eq_true] at h
  exact extract_rows_list_ok t.rows
    (fun r hr c hc => h c (List.mem_flatMap.mpr ⟨r, hr, hc⟩))

theorem extract_rows_many_ok :
    ∀ tables : List HtmlTable, (∀ t ∈ tables, table_spans_ok t = true) →
      ∃ l, extract_rows_many tables = .ok l := by
  intro tables
  induction tables with
  | nil => intro _; exact ⟨[], rfl⟩
  | cons t ts ih =>
    intro h
    obtain ⟨rows, hrows⟩ := extract_rows_ok t (h t (by simp))
    obtain ⟨l, hl⟩ := ih (fun x hx => h x (by simp [hx]))
    rw [extract_rows_many, hrows, hl]
    exact ⟨_, rfl⟩

theorem merge_tables_ok (tables : List HtmlTable)
    (h : ∀ t ∈ tables, table_spans_ok t = true) :
    ∃ o, merge_tables tables = .ok o := by
  unfold merge_tables
  split
  · exact ⟨_, rfl⟩
  · dsimp only
    split
    · exact ⟨_, rfl⟩
    · split
      · exact ⟨_, rfl⟩
      · split
        · exact ⟨_, rfl⟩
        · have hsub : ∀ t ∈ ((tables.filter fun t =>
              t.classes.contains "defFix").filter fun t => !is_title_table t),
              table_spans_ok t = true := by
            intro t ht
            exact h t (List.mem_filter.mp (List.mem_filter.mp ht).1).1
          obtain ⟨l, hl⟩ := extract_rows_many_ok _ hsub
          rw [hl]
          dsimp only
          split
          · exact ⟨_, rfl⟩
          · split
            · exact ⟨_, rfl⟩
            · split
              · exact ⟨_, rfl⟩
              · exact ⟨_, rfl⟩

theorem cell_spans_ok_append (c : HtmlCell) (s : List String) :
    cell_spans_ok (appendCellStyles c s) = cell_spans_ok c := by
  unfold appendCellStyles
  split
  · rfl
  · split
    · split <;> rfl
    · rfl

theorem table_spans_ok_clean (t : HtmlTable) (h : table_spans_ok t = true) :
    table_spans_ok (clean_table t) = true := by
  rw [table_spans_ok, List.all_eq_true] at h ⊢
  intro c hc
  rw [List.mem_flatMap] at hc
  obtain ⟨r, hr, hcr⟩ := hc
  simp only [clean_table] at hr
  obtain ⟨r0, hr0, rfl⟩ := List.mem_map.mp hr
  simp only [clean_row] at hcr
  obtain ⟨c0, hc0, rfl⟩ := List.mem_map.mp hcr
  exact h c0 (List.mem_flatMap.mpr ⟨r0, hr0, hc0⟩)

theorem table_spans_ok_unwrap (t : HtmlTable) :
    table_spans_ok { t with tableformat := none } = table_spans_ok t := rfl

theorem table_spans_ok_inline_one (t : HtmlTable) (h : table_spans_ok t = true) :
    table_spans_ok (apply_inline_borders_one t) = true := by
  unfold apply_inline_borders_one
  split
  · exact h
  · rw [table_spans_ok, List.all_eq_true]
    rw [table_spans_ok, List.all_eq_true] at h
    intro c hc
    rw [List.mem_flatMap] at hc
    obtain ⟨r, hr, hcr⟩ := hc
    simp only [(addBorderCollapse_fields t).2.2.2] at hr
    obtain ⟨r0, hr0, rfl⟩ := List.mem_map.mp hr
    simp only [] at hcr
    obtain ⟨c0, hc0, rfl⟩ := List.mem_map.mp hcr
    rw [show inline_border_cell c0 = appendCellStyles c0 _ from rfl,
      cell_spans_ok_append]
    exact h c0 (List.mem_flatMap.mpr ⟨r0, hr0, hc0⟩)

theorem as_def_table_eq {it : DocItem} {t : HtmlTable}
    (h : as_def_table it = some t) : it = DocItem.table t := by
  cases it <;> simp_all [as_def_table]

theorem as_deffix_table_eq {it : DocItem} {t : HtmlTable}
    (h : as_deffix_table it = some t) : it = DocItem.table t := by
  cases it <;> simp_all [as_deffix_table]

theorem take_group_aux_mem : ∀ (items sep : List DocItem),
    (∀ x ∈ (take_group_aux sep items).2, x ∈ sep ∨ x ∈ items) ∧
    (∀ sg ∈ (take_group_aux sep items).1,
      DocItem.table sg.2 ∈ items ∧ ∀ x ∈ sg.1, x ∈ sep ∨ x ∈ items) := by
  intro items
  induction items with
  | nil =>
    intro sep
    constructor
    · intro x hx
      rw [take_group_aux] at hx
      simp at hx
      exact Or.inl hx
    · intro sg hsg
      rw [take_group_aux] at hsg
      simp at hsg
  | cons it rest ih =>
    intro sep
    rw [take_group_aux]
    by_cases hsep : is_sep_item it
    · simp only [hsep, if_true]
      constructor
      · intro x hx
        rcases (ih (it :: sep)).1 x hx with h | h
        · rcases List.mem_cons.mp h with h2 | h2
          · exact Or.inr (by simp [h2])
          · exact Or.inl h2
        · exact Or.inr (by simp [h])
      · intro sg hsg
        obtain ⟨h1, h2⟩ := (ih (it :: sep)).2 sg hsg
        refine ⟨by simp [h1], ?_⟩
        intro x hx
        rcases h2 x hx with h | h
        · rcases List.mem_cons.mp h with h3 | h3
          · exact Or.inr (by simp [h3])
          · exact Or.inl h3
        · exact Or.inr (by simp [h])
    · simp only [hsep, Bool.false_eq_true, if_false]
      match hdt : as_deffix_table it with
      | some t =>
        have hit := as_deffix_table_eq hdt
        constructor
        · intro x hx
          rcases (ih []).1 x hx with h | h
          · simp at h
          · exact Or.inr (by simp [h])
        · intro sg hsg
          rcases List.mem_cons.mp hsg with h | h
          · subst h
            refine ⟨by simp [hit], ?_⟩
            intro x hx
            simp only [] at hx
            exact Or.inl (List.mem_reverse.mp hx)
          · obtain ⟨h1, h2⟩ := (ih []).2 sg h
            refine ⟨by simp [h1], ?_⟩
            intro x hx
            rcases h2 x hx with h3 | h3
            · simp at h3
            · exact Or.inr (by simp [h3])
      | none =>
        constructor
        · intro x hx
          simp only [] at hx
          rcases List.mem_append.mp hx with h | h
          · exact Or.inl (List.mem_reverse.mp h)
          · exact Or.inr h
        · intro sg hsg
          simp at hsg

theorem drop_br_before_subset (acc : List DocItem) :
    ∀ x ∈ drop_br_before acc, x ∈ acc := by
  intro x hx
  unfold drop_br_before at hx
  split at hx
  case h_1 rest2 heq =>
    rcases List.mem_append.mp hx with h | h
    · exact (List.takeWhile_sublist _).mem h
    · have : x ∈ acc.dropWhile is_ws_text := by rw [heq]; simp [h]
      exact (List.dropWhile_sublist _).mem this
  case h_2 => exact hx

theorem drop_last_br_subset (sep : List DocItem) :
    ∀ x ∈ drop_last_br sep, x ∈ sep := by
  intro x hx
  unfold drop_last_br at hx
  rw [List.mem_reverse] at hx
  have := drop_br_before_subset sep.reverse x hx
  exact List.mem_reverse.mp this

theorem groups_pass_go_ok :
    ∀ (fuel : Nat) (items acc : List DocItem), items.length < fuel →
      AllTablesOk items → AllTablesOk acc →
      ∃ d, groups_pass_go fuel acc items = .ok d ∧ AllTablesOk d := by
  intro fuel
  induction fuel with
  | zero => intro items acc hlen _ _; exact absurd hlen (by omega)
  | succ fuel ih =>
    intro items acc hlen hitems hacc
    match items with
    | [] =>
      exact ⟨acc.reverse, rfl, fun t ht => hacc t (List.mem_reverse.mp ht)⟩
    | it :: rest =>
      have hrest : AllTablesOk rest := fun t ht => hitems t (by simp [ht])
      have hrlen : rest.length < fuel := by simp at hlen; omega
      rw [groups_pass_go]
      match hdt : as_def_table it with
      | none =>
        exact ih rest (it :: acc) hrlen hrest
          (fun t ht => (List.mem_cons.mp ht).elim
            (fun h => hitems t (by simp [h])) (fun h => hacc t h))
      | some deft =>
        have hit := as_def_table_eq hdt
        match htg : take_group_aux [] rest with
        | ([], r) =>
          exact ih rest (it :: acc) hrlen hrest
            (fun t ht => (List.mem_cons.mp ht).elim
              (fun h => hitems t (by simp [h])) (fun h => hacc t h))
        | (seg :: segs, rem) =>
          have hsegs : ∀ sg ∈ seg :: segs,
              DocItem.table sg.2 ∈ rest ∧ ∀ x ∈ sg.1, x ∈ rest := by
            intro sg hsg
            have hm := (take_group_aux_mem rest []).2 sg (by rw [htg]; exact hsg)
            refine ⟨hm.1, fun x hx => ?_⟩
            rcases hm.2 x hx with h | h
            · simp at h
            · exact h
          have hrem : ∀ x ∈ rem, x ∈ rest := by
            intro x hx
            have hm := (take_group_aux_mem rest []).1 x (by rw [htg]; exact hx)
            rcases hm with h | h
            · simp at h
            · exact h
          have hremlen : rem.length < fuel := by
            have h := take_group_aux_length rest []
            rw [htg] at h
            have h2 := h.2 (by simp)
            simp only [List.length_nil, Nat.zero_add] at h2
            omega
          have hremok : AllTablesOk rem := fun t ht => hrest t (hrem _ ht)
          obtain ⟨o, ho⟩ := merge_tables_ok (deft :: (seg :: segs).map (·.2))
            (by
              intro t' ht'
              rcases List.mem_cons.mp ht' with h | h
              · subst h
                exact hitems t' (by rw [← hit]; simp)
              · obtain ⟨sg, hsg, rfl⟩ := List.mem_map.mp h
                exact hrest sg.2 (hsegs sg hsg).1)
          dsimp only
          rw [ho]
          match o with
          | some nt =>
            refine ih rem _ hremlen hremok ?_
            intro t ht
            rcases List.mem_append.mp ht with h | h
            · rw [List.mem_reverse] at h
              obtain ⟨sg, hsg, hx⟩ := List.mem_flatMap.mp h
              have := drop_last_br_subset sg.1 _ hx
              exact hrest t ((hsegs sg hsg).2 _ this)
            · rcases List.mem_cons.mp h with h2 | h2
              · exact absurd h2 (by simp)
              · exact hacc t (drop_br_before_subset acc _ h2)
          | none =>
            refine ih rem _ hremlen hremok ?_
            intro t ht
            rcases List.mem_append.mp ht with h | h
            · rw [List.mem_reverse] at h
              obtain ⟨sg, hsg, hx⟩ := List.mem_flatMap.mp h
              rcases List.mem_append.mp hx with h3 | h3
              · exact hrest t ((hsegs sg hsg).2 _ h3)
              · simp only [List.mem_singleton] at h3
                have h4 : t = apply_inline_borders_one sg.2 := by
                  injection h3.symm with h5
                  exact h5.symm
                rw [h4]
                exact table_spans_ok_inline_one sg.2 (hrest sg.2 (hsegs sg hsg).1)
            · rcases List.mem_cons.mp h with h2 | h2
              · rw [hit] at h2
                injection h2 with h3
                rw [h3]
                exact hitems deft (by rw [← hit]; simp)
              · exact hacc t h2

theorem hidden_pass_item_ok (it : DocItem)
    (h : ∀ t : HtmlTable, it = DocItem.table t → table_spans_ok t = true) :
    ∃ x, hidden_pass_item it = .ok x := by
  match it with
  | .table t =>
    simp only [hidden_pass_item]
    by_cases hdf : t.classes.contains "defFix" = true
    · rw [if_pos hdf]
      by_cases hb : (t.border.getD "" ≠ "" ∧ t.border.getD "" ≠ "0")
      · rw [if_pos hb]; exact ⟨_, rfl⟩
      · rw [if_neg hb]
        by_cases hh : has_hidden_borders t = true
        · rw [if_pos hh]
          obtain ⟨rows, hrows⟩ := extract_rows_ok t (h t rfl)
          unfold normalize_single_hidden
          rw [hrows]
          dsimp only
          split
          · exact ⟨_, rfl⟩
          · split
            · exact ⟨_, rfl⟩
            · split
              · exact ⟨_, rfl⟩
              · exact ⟨_, rfl⟩
        · rw [if_neg hh]; exact ⟨_, rfl⟩
    · rw [if_neg hdf]; exact ⟨_, rfl⟩
  | .br => exact ⟨_, rfl⟩
  | .textnode s => exact ⟨_, rfl⟩
  | .elem tag st => exact ⟨_, rfl⟩
  | .rendered nt => exact ⟨_, rfl⟩

theorem hidden_pass_ok :
    ∀ items : List DocItem, AllTablesOk items → ∃ d, hidden_pass items = .ok d := by
  intro items
  induction items with
  | nil => intro _; exact ⟨[], rfl⟩
  | cons it rest ih =>
    intro h
    obtain ⟨x, hx⟩ := hidden_pass_item_ok it
      (fun t ht => h t (by rw [← ht]; simp))
    obtain ⟨d, hd⟩ := ih (fun t ht => h t (by simp [ht]))
    rw [hidden_pass, hx, hd]
    exact ⟨_, rfl⟩

theorem normalizeRowCellsGo_width_none (cw cpos : List Nat) :
    ∀ (cells : List NormalizedCell) (cp k : Nat) (c : NormalizedCell),
      c ∈ normalizeRowCellsGo cw cpos cells cp k → c.width = none → c.colspan = 1 := by
  intro cells
  induction cells with
  | nil => intro cp k c hc _; simp [normalizeRowCellsGo] at hc
  | cons cell rest ih =>
    intro cp k c hc hw
    simp only [normalizeRowCellsGo] at hc
    split at hc
    · rcases List.mem_cons.mp hc with h | h
      · rw [h]
      · exact ih _ _ c h hw
    · rcases List.mem_cons.mp hc with h | h
      · rw [h] at hw; simp at hw
      · exact ih _ _ c h hw

theorem allTablesOk_prep (doc : List DocItem) (h : AllTablesOk doc) :
    AllTablesOk (unwrap_wrapper_tables (clean_black_color_styles doc)) := by
  intro t ht
  unfold unwrap_wrapper_tables clean_black_color_styles at ht
  rw [List.map_map] at ht
  obtain ⟨x, hx, hxe⟩ := List.mem_map.mp ht
  cases x with
  | table t0 =>
    simp only [Function.comp, clean_item, unwrap_item] at hxe
    injection hxe with h2
    rw [← h2, table_spans_ok_unwrap, table_spans_ok_clean]
    exact h t0 hx
  | br => simp [Function.comp, clean_item, unwrap_item] at hxe
  | textnode s => simp [Function.comp, clean_item, unwrap_item] at hxe
  | elem tag st => simp [Function.comp, clean_item, unwrap_item] at hxe
  | rendered nt => simp [Function.comp, clean_item, unwrap_item] at hxe

/-- C1: the totality of normalization is conditional. (a) On any document
whose table colspan/rowspan attributes all parse as Python integers,
`normalize_doc` succeeds (no exception escapes). (b) A width attribute
with no leading digits is treated as absent (`width = none`), not an
error. (c) When canonical widths exist, a cell without width information
gets colspan 1. Part (a)'s hypothesis is necessary: see
`c1_counterexample`, where an unparseable `colspan` attribute makes
`normalize_doc` return an error, contradicting the claim that the
normalizer never fails on any input. -/
theorem c1_normalize_totality :
    (∀ doc : List DocItem, AllTablesOk doc → ∃ d, normalize_doc doc = .ok d) ∧
    (∀ (hc : HtmlCell) (nc : NormalizedCell), extract_cell hc = .ok nc →
      ∀ w, hc.width_attr = some w → leadingNat w = none → nc.width = none) ∧
    (∀ (cells : List NormalizedCell) (cw : List Nat) (c : NormalizedCell),
      cw ≠ [] → c ∈ normalize_row_cells cells cw → c.width = none →
      c.colspan = 1) := by
  refine ⟨?_, ?_, ?_⟩
  · intro doc h
    have h2 := allTablesOk_prep doc h
    obtain ⟨d3, hd3, hall⟩ :=
      groups_pass_go_ok
        ((unwrap_wrapper_tables (clean_black_color_styles doc)).length + 1)
        (unwrap_wrapper_tables (clean_black_color_styles doc)) []
        (by omega) h2 (fun t ht => absurd ht (List.not_mem_nil _))
    unfold normalize_doc groups_pass
    rw [hd3]
    exact hidden_pass_ok d3 hall
  · intro hc nc hok w hw hlead
    unfold extract_cell at hok
    rw [hw] at hok
    dsimp only at hok
    have hwid : (if w == "" then none else leadingNat w) = (none : Option Nat) := by
      split
      · rfl
      · exact hlead
    rw [hwid] at hok
    split at hok
    · exact absurd hok (by simp)
    · split at hok
      · exact absurd hok (by simp)
      · injection hok with h2
        rw [← h2]
  · intro cells cw c hcw hc hw
    unfold normalize_row_cells at hc
    rw [if_neg (by simpa using hcw)] at hc
    exact normalizeRowCellsGo_width_none cw (canonical_positions cw) cells 0 0 c hc hw

def c1doc : List DocItem :=
  [.table { classes := ["defFix"],
            rows := [⟨[{ classes := ["C1"], colspan_attr := some "abc",
                         text := "x" }]⟩] }]

/-- C1 counterexample: a `defFix` table with `colspan="abc"` makes the
normalizer raise (`int('abc')` in `_extract_rows`), so the claim that
normalization never fails on any document is false as stated. -/
theorem c1_counterexample :
    normalize_doc c1doc =
      .error "ValueError: invalid literal for int() in colspan" := by rfl

def c1okdoc : List DocItem :=
  [.table { classes := ["defFix"],
            rows := [⟨[{ classes := ["C1"], text := "x" }]⟩,
                     ⟨[{ text := "y" }]⟩] }]

def c1cell : HtmlCell := { classes := ["C1"], width_attr := some "abc", text := "x" }

def c1ncell : NormalizedCell := { text := "z" }

theorem c1_normalize_totality_witness :
    (AllTablesOk c1okdoc ∧ ∃ d, normalize_doc c1okdoc = .ok d) ∧
    (∃ nc, extract_cell c1cell = .ok nc ∧ nc.width = none) ∧
    c1ncell.colspan = 1 := by
  have hok : AllTablesOk c1okdoc := by
    intro t ht
    simp only [c1okdoc, List.mem_singleton, DocItem.table.injEq] at ht
    rw [ht]
    decide
  refine ⟨⟨hok, c1_normalize_totality.1 c1okdoc hok⟩, ?_, ?_⟩
  · refine ⟨_, rfl, ?_⟩
    exact c1_normalize_totality.2.1 c1cell _ rfl "abc" rfl (by decide)
  · exact c1_normalize_totality.2.2
      [c1ncell] [100, 200] c1ncell (by decide) (by decide) rfl
